import Mathlib

/-!
Shallow embedding of the two-step delete confirmation protocol implemented in
`src/confirmations.py` (proposal record, Redis-backed proposal store, atomic
single-use consumption via a Lua CAS script, and the validate-and-consume
state machine), together with proofs of the specification claims about it.

Modelling conventions:
* Wall-clock times (`time.time()` floats) are modelled as `Nat` seconds.
  `created_at` is serialised to its decimal string in the store (the source
  stores `str(float)` and parses it back with `float`; that round trip is
  exact, as is the one here).
* `hashlib.sha256` is modelled by an explicit digest-function parameter
  `sha : String → List Nat` producing a 32-byte digest; `hexdigest` and the
  URL-safe base64 encoding used by `secrets.token_urlsafe` are implemented
  concretely.
* Randomness (`uuid4`, the random bytes behind `secrets.token_urlsafe`) is
  modelled by passing the generated identifier / bytes as explicit arguments.
* The Redis store is an association list from keys to hashes (field/value
  association lists) with an optional per-key TTL; `HSET` on an absent key
  creates it without a TTL, `EXPIRE` attaches one, and the Lua CAS script of
  `_mark_used` is translated statement by statement.
-/

namespace DataverseMCP

/-! ### Decimal strings (serialising `created_at`, formatting ages/TTLs) -/

def natDigitsAux : Nat → Nat → List Char
  | 0, _ => []
  | fuel + 1, n =>
    if n < 10 then [Nat.digitChar n]
    else natDigitsAux fuel (n / 10) ++ [Nat.digitChar (n % 10)]

def natStr (n : Nat) : String :=
  String.mk (natDigitsAux (n + 1) n)

def digitVal (c : Char) : Nat := c.toNat - 48

def parseNat (s : String) : Nat :=
  s.data.foldl (fun a c => a * 10 + digitVal c) 0

def isDigitCh (c : Char) : Bool := 48 ≤ c.toNat && c.toNat ≤ 57

theorem digitVal_digitChar {n : Nat} (h : n < 10) : digitVal (Nat.digitChar n) = n := by
  interval_cases n <;> rfl

theorem isDigitCh_digitChar {n : Nat} (h : n < 10) : isDigitCh (Nat.digitChar n) = true := by
  interval_cases n <;> rfl

theorem natDigitsAux_parse : ∀ fuel n, n < fuel →
    List.foldl (fun a c => a * 10 + digitVal c) 0 (natDigitsAux fuel n) = n := by
  intro fuel
  induction fuel with
  | zero => intro n h; omega
  | succ f ih =>
    intro n h
    by_cases h10 : n < 10
    · simp [natDigitsAux, h10, digitVal_digitChar h10]
    · have hd : n / 10 < n := Nat.div_lt_self (by omega) (by omega)
      have h1 : n / 10 < f := by omega
      have hmod : n % 10 < 10 := Nat.mod_lt _ (by omega)
      have hdm := Nat.div_add_mod n 10
      simp only [natDigitsAux, if_neg h10, List.foldl_append, List.foldl_cons, List.foldl_nil]
      rw [ih _ h1, digitVal_digitChar hmod]
      omega

theorem parseNat_natStr (n : Nat) : parseNat (natStr n) = n :=
  natDigitsAux_parse (n + 1) n (Nat.lt_succ_self n)

theorem natDigitsAux_ne_nil : ∀ fuel n, n < fuel → natDigitsAux fuel n ≠ [] := by
  intro fuel
  induction fuel with
  | zero => intro n h; omega
  | succ f ih =>
    intro n h
    by_cases h10 : n < 10
    · simp [natDigitsAux, h10]
    · simp [natDigitsAux, h10]

theorem natDigitsAux_digits : ∀ fuel n, ∀ c ∈ natDigitsAux fuel n, isDigitCh c = true := by
  intro fuel
  induction fuel with
  | zero => intro n c hc; simp [natDigitsAux] at hc
  | succ f ih =>
    intro n c hc
    by_cases h10 : n < 10
    · simp only [natDigitsAux, if_pos h10, List.mem_singleton] at hc
      exact hc ▸ isDigitCh_digitChar h10
    · simp only [natDigitsAux, if_neg h10, List.mem_append, List.mem_singleton] at hc
      rcases hc with hc | hc
      · exact ih _ c hc
      · exact hc ▸ isDigitCh_digitChar (Nat.mod_lt _ (by omega))

theorem natStr_digits (n : Nat) : ∀ c ∈ (natStr n).data, isDigitCh c = true :=
  natDigitsAux_digits (n + 1) n

/-! ### Hex digests and URL-safe base64 (hashlib / secrets library functions) -/

def isHexLowerCh (c : Char) : Bool :=
  (48 ≤ c.toNat && c.toNat ≤ 57) || (97 ≤ c.toNat && c.toNat ≤ 102)

/-- Characters of the lowercase hex rendering of a byte string, two characters
per byte, as produced by Python `hexdigest()` (the `% 16` guards only totalise
the function for values above 255, which a digest never contains). -/
def hexChars : List Nat → List Char
  | [] => []
  | b :: bs => Nat.digitChar (b / 16 % 16) :: Nat.digitChar (b % 16) :: hexChars bs

theorem isHexLowerCh_digitChar {n : Nat} (h : n < 16) : isHexLowerCh (Nat.digitChar n) = true := by
  interval_cases n <;> rfl

theorem hexChars_length : ∀ bs : List Nat, (hexChars bs).length = 2 * bs.length := by
  intro bs
  induction bs with
  | nil => rfl
  | cons b bs ih => simp [hexChars, ih]; omega

theorem hexChars_hex : ∀ bs : List Nat, ∀ c ∈ hexChars bs, isHexLowerCh c = true := by
  intro bs
  induction bs with
  | nil => intro c hc; simp [hexChars] at hc
  | cons b bs ih =>
    intro c hc
    simp only [hexChars, List.mem_cons] at hc
    rcases hc with hc | hc | hc
    · exact hc ▸ isHexLowerCh_digitChar (Nat.mod_lt _ (by omega))
    · exact hc ▸ isHexLowerCh_digitChar (Nat.mod_lt _ (by omega))
    · exact ih c hc

/-- One character of the URL-safe base64 alphabet (`A-Z`, `a-z`, `0-9`, `-`, `_`). -/
def b64Char (n : Nat) : Char :=
  if n < 26 then Char.ofNat (65 + n)
  else if n < 52 then Char.ofNat (97 + (n - 26))
  else if n < 62 then Char.ofNat (48 + (n - 52))
  else if n = 62 then Char.ofNat 45
  else Char.ofNat 95

/-- URL-safe base64 of a byte string with padding stripped, as produced by
`secrets.token_urlsafe` (the `%` guards only totalise beyond byte range). -/
def b64Chars : List Nat → List Char
  | [] => []
  | [a] => [b64Char (a / 4 % 64), b64Char (a % 4 * 16)]
  | [a, b] => [b64Char (a / 4 % 64), b64Char (a % 4 * 16 + b / 16 % 16), b64Char (b % 16 * 4)]
  | a :: b :: c :: rest =>
    b64Char (a / 4 % 64) :: b64Char (a % 4 * 16 + b / 16 % 16) ::
      b64Char (b % 16 * 4 + c / 64 % 4) :: b64Char (c % 64) :: b64Chars rest

/-- `secrets.token_urlsafe` applied to explicitly supplied random bytes. -/
def tokenUrlsafe (bytes : List Nat) : String :=
  String.mk (b64Chars bytes)

theorem b64Chars_length_aux : ∀ (n : Nat) (l : List Nat), l.length ≤ n →
    (b64Chars l).length =
      4 * (l.length / 3) + (match l.length % 3 with | 0 => 0 | 1 => 2 | _ => 3) := by
  intro n
  induction n with
  | zero =>
    intro l hl
    have h0 : l = [] := List.eq_nil_of_length_eq_zero (by omega)
    subst h0; rfl
  | succ n ih =>
    intro l hl
    match l with
    | [] => rfl
    | [a] => simp [b64Chars]
    | [a, b] => simp [b64Chars]
    | a :: b :: c :: rest =>
      have hr : rest.length ≤ n := by
        simp only [List.length_cons] at hl; omega
      have hrec := ih rest hr
      have hd3 : (rest.length + 1 + 1 + 1) / 3 = rest.length / 3 + 1 := by omega
      have hm3 : (rest.length + 1 + 1 + 1) % 3 = rest.length % 3 := by omega
      simp only [b64Chars, List.length_cons, hrec, hd3, hm3]
      have hm : rest.length % 3 = 0 ∨ rest.length % 3 = 1 ∨ rest.length % 3 = 2 := by omega
      rcases hm with h | h | h <;> rw [h] <;> omega

theorem b64Chars_length (l : List Nat) :
    (b64Chars l).length =
      4 * (l.length / 3) + (match l.length % 3 with | 0 => 0 | 1 => 2 | _ => 3) :=
  b64Chars_length_aux l.length l (Nat.le_refl _)

/-! ### Maximal run of a character class (for the non-disclosure claim) -/

def prefRunLen (P : Char → Bool) (l : List Char) : Nat := (l.takeWhile P).length

def maxRun (P : Char → Bool) : List Char → Nat
  | [] => 0
  | c :: cs => if P c then max (prefRunLen P (c :: cs)) (maxRun P cs) else maxRun P cs

theorem maxRun_le_cons (P : Char → Bool) (c : Char) (cs : List Char) :
    maxRun P cs ≤ maxRun P (c :: cs) := by
  by_cases h : P c
  · simp [maxRun, h]
  · simp [maxRun, h]

theorem length_le_prefRunLen_of_isPrefix {P : Char → Bool} :
    ∀ {s t : List Char}, s <+: t → s.all P = true → s.length ≤ prefRunLen P t := by
  intro s
  induction s with
  | nil => intro t _ _; simp
  | cons c s ih =>
    intro t hpre hall
    obtain ⟨r, hr⟩ := hpre
    subst hr
    simp only [List.all_cons, Bool.and_eq_true] at hall
    simp only [prefRunLen, List.cons_append, List.takeWhile_cons, hall.1, if_true, ite_true,
      List.length_cons]
    have h2 := ih (t := s ++ r) ⟨r, rfl⟩ hall.2
    simp only [prefRunLen] at h2
    omega

theorem length_le_maxRun_of_infixP {P : Char → Bool} :
    ∀ {t s : List Char}, s <:+: t → s.all P = true → s.length ≤ maxRun P t := by
  intro t
  induction t with
  | nil =>
    intro s hinf _
    obtain ⟨u, v, huv⟩ := hinf
    have hs : s = [] := by
      simp only [List.append_eq_nil] at huv
      exact huv.1.2
    simp [hs]
  | cons c t ih =>
    intro s hinf hall
    rcases List.infix_cons_iff.mp hinf with hpre | htail
    · rcases s with _ | ⟨c', s'⟩
      · simp
      · have hc : c' = c := by
          obtain ⟨r, hr⟩ := hpre
          simp only [List.cons_append, List.cons.injEq] at hr
          exact hr.1
        have hPc : P c = true := by
          simp only [List.all_cons, Bool.and_eq_true] at hall
          exact hc ▸ hall.1
        have h1 := length_le_prefRunLen_of_isPrefix hpre hall
        calc (c' :: s').length ≤ prefRunLen P (c :: t) := h1
          _ ≤ maxRun P (c :: t) := by
            simp only [maxRun, hPc, if_true]
            exact Nat.le_max_left _ _
    · calc s.length ≤ maxRun P t := ih htail hall
        _ ≤ maxRun P (c :: t) := maxRun_le_cons P c t

theorem takeWhile_append_break {P : Char → Bool} {d : Char} (hd : P d = false) :
    ∀ (xs ys : List Char), (xs ++ d :: ys).takeWhile P = xs.takeWhile P := by
  intro xs ys
  induction xs with
  | nil => simp [List.takeWhile_cons, hd]
  | cons x xs ih =>
    simp only [List.cons_append, List.takeWhile_cons]
    by_cases hx : P x
    · simp [hx, ih]
    · simp [hx]

theorem maxRun_append_break {P : Char → Bool} {d : Char} (hd : P d = false) :
    ∀ (a b : List Char), maxRun P (a ++ d :: b) = max (maxRun P a) (maxRun P b) := by
  intro a b
  induction a with
  | nil => simp [maxRun, hd]
  | cons c a ih =>
    by_cases hc : P c
    · have hpr : prefRunLen P (c :: (a ++ d :: b)) = prefRunLen P (c :: a) := by
        simp [prefRunLen, List.takeWhile_cons, hc, takeWhile_append_break hd a b]
      have h1 : maxRun P (c :: (a ++ d :: b)) =
          max (prefRunLen P (c :: (a ++ d :: b))) (maxRun P (a ++ d :: b)) := by
        simp [maxRun, hc]
      have h2 : maxRun P (c :: a) = max (prefRunLen P (c :: a)) (maxRun P a) := by
        simp [maxRun, hc]
      rw [List.cons_append, h1, h2, hpr, ih]
      omega
    · have h1 : maxRun P (c :: (a ++ d :: b)) = maxRun P (a ++ d :: b) := by
        simp [maxRun, hc]
      have h2 : maxRun P (c :: a) = maxRun P a := by
        simp [maxRun, hc]
      rw [List.cons_append, h1, h2, ih]

theorem maxRun_eq_zero {P : Char → Bool} :
    ∀ {l : List Char}, (∀ c ∈ l, P c = false) → maxRun P l = 0 := by
  intro l h
  induction l with
  | nil => rfl
  | cons c cs ih =>
    have hc : P c = false := h c (List.mem_cons_self c cs)
    simp only [maxRun, hc, if_false]
    exact ih fun x hx => h x (List.mem_cons_of_mem c hx)

/-! ### Association lists (Redis hashes and the keyspace) -/

def alistGet {α : Type} : List (String × α) → String → Option α
  | [], _ => none
  | (g, w) :: rest, f => if g = f then some w else alistGet rest f

def alistSet {α : Type} : List (String × α) → String → α → List (String × α)
  | [], f, v => [(f, v)]
  | (g, w) :: rest, f, v => if g = f then (f, v) :: rest else (g, w) :: alistSet rest f v

def alistDel {α : Type} : List (String × α) → String → List (String × α)
  | [], _ => []
  | (g, w) :: rest, f => if g = f then alistDel rest f else (g, w) :: alistDel rest f

theorem alistGet_alistSet_self {α : Type} :
    ∀ (l : List (String × α)) (f : String) (v : α), alistGet (alistSet l f v) f = some v := by
  intro l f v
  induction l with
  | nil => simp [alistSet, alistGet]
  | cons p rest ih =>
    by_cases h : p.1 = f
    · simp [alistSet, alistGet, h]
    · simp [alistSet, alistGet, h, ih]

theorem alistGet_alistSet_ne {α : Type} :
    ∀ (l : List (String × α)) (f g : String) (v : α), g ≠ f →
      alistGet (alistSet l f v) g = alistGet l g := by
  intro l f g v hne
  have hfg : ¬f = g := fun hh => hne hh.symm
  induction l with
  | nil => simp [alistSet, alistGet, hfg]
  | cons p rest ih =>
    obtain ⟨a, w⟩ := p
    by_cases h : a = f
    · subst h
      simp [alistSet, alistGet, hfg]
    · by_cases h2 : a = g
      · simp [alistSet, alistGet, h, h2, hne]
      · simp [alistSet, alistGet, h, h2, ih]

theorem alistGet_alistDel_self {α : Type} :
    ∀ (l : List (String × α)) (f : String), alistGet (alistDel l f) f = none := by
  intro l f
  induction l with
  | nil => simp [alistDel, alistGet]
  | cons p rest ih =>
    by_cases h : p.1 = f
    · simp [alistDel, h, ih]
    · simp [alistDel, alistGet, h, ih]

theorem alistGet_alistDel_ne {α : Type} :
    ∀ (l : List (String × α)) (f g : String), g ≠ f →
      alistGet (alistDel l f) g = alistGet l g := by
  intro l f g hne
  induction l with
  | nil => simp [alistDel]
  | cons p rest ih =>
    obtain ⟨a, w⟩ := p
    by_cases h : a = f
    · subst h
      have h2 : ¬a = g := fun hh => hne hh.symm
      simp [alistDel, alistGet, h2, ih]
    · by_cases h2 : a = g
      · simp [alistDel, alistGet, h, h2, hne]
      · simp [alistDel, alistGet, h, h2, ih]

theorem alistSet_ne_nil {α : Type} (l : List (String × α)) (f : String) (v : α) :
    alistSet l f v ≠ [] := by
  match l with
  | [] => simp [alistSet]
  | p :: rest =>
    by_cases h : p.1 = f
    · simp [alistSet, h]
    · simp [alistSet, h]

/-! ### Redis store model -/

structure RedisEntry where
  fields : List (String × String)
  ttl : Option Nat
deriving DecidableEq, Repr

structure RedisStore where
  entries : List (String × RedisEntry)
deriving DecidableEq, Repr

def RedisStore.lookup (st : RedisStore) (k : String) : Option RedisEntry :=
  alistGet st.entries k

/-- `HSET key mapping`: sets the given fields; an absent key is created with
no TTL attached, an existing key keeps its TTL. -/
def RedisStore.hsetMapping (st : RedisStore) (k : String)
    (mapping : List (String × String)) : RedisStore :=
  match alistGet st.entries k with
  | none =>
    ⟨alistSet st.entries k ⟨mapping.foldl (fun fs fv => alistSet fs fv.1 fv.2) [], none⟩⟩
  | some e =>
    ⟨alistSet st.entries k ⟨mapping.foldl (fun fs fv => alistSet fs fv.1 fv.2) e.fields, e.ttl⟩⟩

/-- `EXPIRE key t`: attaches a TTL to an existing key; no effect on an absent key. -/
def RedisStore.expire (st : RedisStore) (k : String) (t : Nat) : RedisStore :=
  match alistGet st.entries k with
  | none => st
  | some e => ⟨alistSet st.entries k ⟨e.fields, some t⟩⟩

def RedisStore.hget (st : RedisStore) (k f : String) : Option String :=
  (st.lookup k).bind fun e => alistGet e.fields f

/-- `HGETALL key`: the field/value pairs, empty for an absent key. -/
def RedisStore.hgetall (st : RedisStore) (k : String) : List (String × String) :=
  match st.lookup k with
  | none => []
  | some e => e.fields

def RedisStore.del (st : RedisStore) (k : String) : RedisStore :=
  ⟨alistDel st.entries k⟩

/-- The Lua CAS script of `confirmations._CAS_SCRIPT`, translated statement by
statement: read field `used`; if it equals `'1'` return 1 without mutating;
otherwise set it to `'1'` and return 0. -/
def casUsed (st : RedisStore) (k : String) : Nat × RedisStore :=
  if st.hget k "used" = some "1" then (1, st)
  else (0, st.hsetMapping k [("used", "1")])

/-! ### The confirmation module (`src/confirmations.py`) -/

/-- `confirmations.CONFIRM_PHRASE`. -/
def CONFIRM_PHRASE : String := "CONFIRM DELETE"

/-- The Redis key namespace `mcp:proposal:` prepended by `confirmations._key`. -/
def redisNamespace : String := "mcp:proposal:"

def pkey (pid : String) : String := redisNamespace ++ pid

/-- `config.Settings.confirm_token_ttl_seconds` default value. -/
def confirmTokenTtlSecondsDefault : Nat := 120

structure Proposal where
  proposal_id : String
  table : String
  record_id : String
  token_hash : String
  confirm_phrase : String
  created_at : Nat
  used : Bool
deriving DecidableEq, Repr

/-- The `ConfirmationError` subclasses raised by `validate_and_consume`,
each carrying its message. -/
inductive ConfirmError where
  | notFound (msg : String)
  | expired (msg : String)
  | alreadyUsed (msg : String)
  | phraseMismatch (msg : String)
  | tokenMismatch (msg : String)
deriving DecidableEq, Repr

def ConfirmError.message : ConfirmError → String
  | .notFound m => m
  | .expired m => m
  | .alreadyUsed m => m
  | .phraseMismatch m => m
  | .tokenMismatch m => m

/-- `confirmations._hash_token`: SHA-256 hex digest of the token. -/
def hashToken (sha : String → List Nat) (token : String) : String :=
  String.mk (hexChars (sha token))

/-- A single apostrophe, as interpolated by the message f-strings. -/
def qu : String := String.mk [Char.ofNat 39]

def notFoundMsg (pid : String) : String :=
  "No proposal found with id " ++ qu ++ pid ++ qu ++ ". It may have expired or never existed."

def expiredMsg (pid : String) (age ttl : Nat) : String :=
  "Proposal " ++ qu ++ pid ++ qu ++ " expired (" ++ natStr age ++ "s > " ++ natStr ttl ++
    "s TTL). Please create a new delete request."

def alreadyUsedMsg (pid : String) : String :=
  "Proposal " ++ qu ++ pid ++ qu ++
    " has already been used. Each delete proposal can only be confirmed once."

def phraseMismatchMsg (expected got : String) : String :=
  "Confirmation phrase mismatch. Expected " ++ qu ++ expected ++ qu ++ ", got " ++ qu ++ got ++
    qu ++ "."

def tokenMismatchMsg : String :=
  "Confirmation token does not match. Use the exact token returned by the propose step."

/-- Serialisation used by `confirmations._put`: `asdict` field order with
`used` and `created_at` rendered as strings. -/
def putFields (p : Proposal) : List (String × String) :=
  [("proposal_id", p.proposal_id), ("table", p.table), ("record_id", p.record_id),
   ("token_hash", p.token_hash), ("confirm_phrase", p.confirm_phrase),
   ("created_at", natStr p.created_at), ("used", if p.used then "1" else "0")]

/-- `confirmations._put`: HSET all fields, then EXPIRE with the configured TTL. -/
def put (ttl : Nat) (st : RedisStore) (p : Proposal) : RedisStore :=
  (st.hsetMapping (pkey p.proposal_id) (putFields p)).expire (pkey p.proposal_id) ttl

/-- The total restriction of `confirmations._get`: `HGETALL`, `None` for an
empty hash, else parse a fully populated hash back into a `Proposal`; a
non-empty hash missing one of the seven fields gives `none` here. The source
instead raises an uncaught `KeyError` on such a hash — a reachable state,
since the CAS leaves a `used`-only marker on an evicted key — and `getPE`
below models that path faithfully; on fully populated hashes the two agree
(`getPE_found_iff`). -/
def getP (st : RedisStore) (pid : String) : Option Proposal :=
  let data := st.hgetall (pkey pid)
  if data = [] then none
  else
    match alistGet data "proposal_id", alistGet data "table", alistGet data "record_id",
        alistGet data "token_hash", alistGet data "confirm_phrase",
        alistGet data "created_at", alistGet data "used" with
    | some i, some t, some r, some h, some c, some ca, some u =>
      some ⟨i, t, r, h, c, parseNat ca, u == "1"⟩
    | _, _, _, _, _, _, _ => none

/-- `confirmations._mark_used`: run the CAS script; raise
`ProposalAlreadyUsedError` when it reports the proposal as already used. -/
def markUsed (st : RedisStore) (pid : String) : Except ConfirmError Unit × RedisStore :=
  let rs := casUsed st (pkey pid)
  if rs.1 = 1 then (Except.error (ConfirmError.alreadyUsed (alreadyUsedMsg pid)), rs.2)
  else (Except.ok (), rs.2)

/-- `confirmations._delete`. -/
def deleteP (st : RedisStore) (pid : String) : RedisStore :=
  st.del (pkey pid)

/-- `confirmations.create_proposal`, with the generated `uuid4` identifier and
the random bytes behind `secrets.token_urlsafe(32)` passed explicitly. -/
def createProposal (sha : String → List Nat) (ttl : Nat) (st : RedisStore) (now : Nat)
    (table record_id : String) (pid : String) (tokenBytes : List Nat) :
    (String × String × String) × RedisStore :=
  let confirm_token := tokenUrlsafe tokenBytes
  let token_hash := hashToken sha confirm_token
  let st1 := put ttl st ⟨pid, table, record_id, token_hash, CONFIRM_PHRASE, now, false⟩
  ((pid, confirm_token, CONFIRM_PHRASE), st1)

/-- `confirmations.validate_and_consume`, step for step: lookup, defensive
expiry check (with delete), atomic consumption, phrase check, token check.
This is the non-crashing restriction (lookup via `getP`);
`validateAndConsumeE` below additionally carries the uncaught `KeyError`
escape of `_get` on a partially populated hash, and agrees with this
function whenever the lookup parses (`validateAndConsumeE_found`). -/
def validateAndConsume (sha : String → List Nat) (ttl : Nat) (st : RedisStore) (now : Nat)
    (pid tok phr : String) : Except ConfirmError Proposal × RedisStore :=
  match getP st pid with
  | none => (Except.error (ConfirmError.notFound (notFoundMsg pid)), st)
  | some proposal =>
    let age := now - proposal.created_at
    if age > ttl then
      (Except.error (ConfirmError.expired (expiredMsg pid age ttl)), deleteP st pid)
    else
      match markUsed st pid with
      | (Except.error e, st1) => (Except.error e, st1)
      | (Except.ok _, st1) =>
        if phr ≠ proposal.confirm_phrase then
          (Except.error (ConfirmError.phraseMismatch
            (phraseMismatchMsg proposal.confirm_phrase phr)), st1)
        else if hashToken sha tok ≠ proposal.token_hash then
          (Except.error (ConfirmError.tokenMismatch tokenMismatchMsg), st1)
        else
          (Except.ok proposal, st1)

/-- Result of `confirmations._get` with its exception path made explicit. -/
inductive GetResult where
  | absent
  | found (p : Proposal)
  | keyError (field : String)
deriving Repr

/-- `confirmations._get`, modelled faithfully: `HGETALL`, `None` on an empty
hash, otherwise the hash is indexed field by field in the evaluation order of
the `Proposal(...)` keyword arguments; the first missing field raises
`KeyError` on that field, which no caller catches. -/
def getPE (st : RedisStore) (pid : String) : GetResult :=
  let data := st.hgetall (pkey pid)
  if data = [] then .absent
  else
    match alistGet data "proposal_id" with
    | none => .keyError "proposal_id"
    | some i =>
      match alistGet data "table" with
      | none => .keyError "table"
      | some t =>
        match alistGet data "record_id" with
        | none => .keyError "record_id"
        | some r =>
          match alistGet data "token_hash" with
          | none => .keyError "token_hash"
          | some h =>
            match alistGet data "confirm_phrase" with
            | none => .keyError "confirm_phrase"
            | some c =>
              match alistGet data "created_at" with
              | none => .keyError "created_at"
              | some ca =>
                match alistGet data "used" with
                | none => .keyError "used"
                | some u => .found ⟨i, t, r, h, c, parseNat ca, u == "1"⟩

/-- Outcome of one `validate_and_consume` call: a returned value or raised
`ConfirmationError`, or the uncaught `KeyError` escaping from `_get`. -/
inductive CallOutcome where
  | ret (r : Except ConfirmError Proposal)
  | keyError (field : String)
deriving Repr

/-- `confirmations.validate_and_consume` with the `KeyError` escape path of
`_get` carried explicitly: a partially populated hash aborts the call before
any further store operation. All other statements are those of
`validateAndConsume`. -/
def validateAndConsumeE (sha : String → List Nat) (ttl : Nat) (st : RedisStore) (now : Nat)
    (pid tok phr : String) : CallOutcome × RedisStore :=
  match getPE st pid with
  | .keyError f => (.keyError f, st)
  | .absent => (.ret (Except.error (ConfirmError.notFound (notFoundMsg pid))), st)
  | .found proposal =>
    let age := now - proposal.created_at
    if age > ttl then
      (.ret (Except.error (ConfirmError.expired (expiredMsg pid age ttl))), deleteP st pid)
    else
      match markUsed st pid with
      | (Except.error e, st1) => (.ret (Except.error e), st1)
      | (Except.ok _, st1) =>
        if phr ≠ proposal.confirm_phrase then
          (.ret (Except.error (ConfirmError.phraseMismatch
            (phraseMismatchMsg proposal.confirm_phrase phr))), st1)
        else if hashToken sha tok ≠ proposal.token_hash then
          (.ret (Except.error (ConfirmError.tokenMismatch tokenMismatchMsg)), st1)
        else
          (.ret (Except.ok proposal), st1)

/-! ### Store-level helper lemmas -/

theorem lookup_hsetMapping_self_absent {st : RedisStore} {k : String}
    (h : st.lookup k = none) (mapping : List (String × String)) :
    (st.hsetMapping k mapping).lookup k =
      some ⟨mapping.foldl (fun fs fv => alistSet fs fv.1 fv.2) [], none⟩ := by
  simp only [RedisStore.hsetMapping, RedisStore.lookup] at *
  rw [h]
  exact alistGet_alistSet_self ..

theorem lookup_hsetMapping_self_present {st : RedisStore} {k : String} {e : RedisEntry}
    (h : st.lookup k = some e) (mapping : List (String × String)) :
    (st.hsetMapping k mapping).lookup k =
      some ⟨mapping.foldl (fun fs fv => alistSet fs fv.1 fv.2) e.fields, e.ttl⟩ := by
  simp only [RedisStore.hsetMapping, RedisStore.lookup] at *
  rw [h]
  exact alistGet_alistSet_self ..

theorem lookup_hsetMapping_ne {st : RedisStore} {k k' : String} (hne : k' ≠ k)
    (mapping : List (String × String)) :
    (st.hsetMapping k mapping).lookup k' = st.lookup k' := by
  simp only [RedisStore.hsetMapping, RedisStore.lookup]
  cases h : alistGet st.entries k <;> exact alistGet_alistSet_ne _ _ _ _ hne

theorem lookup_expire_self_present {st : RedisStore} {k : String} {e : RedisEntry}
    (h : st.lookup k = some e) (t : Nat) :
    (st.expire k t).lookup k = some ⟨e.fields, some t⟩ := by
  simp only [RedisStore.expire, RedisStore.lookup] at *
  rw [h]
  exact alistGet_alistSet_self ..

theorem lookup_expire_ne {st : RedisStore} {k k' : String} (hne : k' ≠ k) (t : Nat) :
    (st.expire k t).lookup k' = st.lookup k' := by
  simp only [RedisStore.expire, RedisStore.lookup]
  cases h : alistGet st.entries k
  · rfl
  · exact alistGet_alistSet_ne _ _ _ _ hne

theorem lookup_del_self (st : RedisStore) (k : String) : (st.del k).lookup k = none := by
  simp only [RedisStore.del, RedisStore.lookup]
  exact alistGet_alistDel_self ..

theorem lookup_del_ne (st : RedisStore) {k k' : String} (hne : k' ≠ k) :
    (st.del k).lookup k' = st.lookup k' := by
  simp only [RedisStore.del, RedisStore.lookup]
  exact alistGet_alistDel_ne _ _ _ hne

theorem hgetall_eq_fields {st : RedisStore} {k : String} {e : RedisEntry}
    (h : st.lookup k = some e) : st.hgetall k = e.fields := by
  simp [RedisStore.hgetall, h]

theorem lookup_of_hgetall_ne_nil {st : RedisStore} {k : String}
    (h : st.hgetall k ≠ []) : ∃ e : RedisEntry, st.lookup k = some e ∧ e.fields = st.hgetall k := by
  cases he : st.lookup k with
  | none => exact absurd (by simp [RedisStore.hgetall, he]) h
  | some e => exact ⟨e, rfl, by simp [RedisStore.hgetall, he]⟩

/-- Unpack `getP st pid = some p` into the underlying hash facts. -/
theorem getP_elim {st : RedisStore} {pid : String} {p : Proposal}
    (h : getP st pid = some p) :
    st.hgetall (pkey pid) ≠ [] ∧
    ∃ ca u,
      alistGet (st.hgetall (pkey pid)) "proposal_id" = some p.proposal_id ∧
      alistGet (st.hgetall (pkey pid)) "table" = some p.table ∧
      alistGet (st.hgetall (pkey pid)) "record_id" = some p.record_id ∧
      alistGet (st.hgetall (pkey pid)) "token_hash" = some p.token_hash ∧
      alistGet (st.hgetall (pkey pid)) "confirm_phrase" = some p.confirm_phrase ∧
      alistGet (st.hgetall (pkey pid)) "created_at" = some ca ∧ parseNat ca = p.created_at ∧
      alistGet (st.hgetall (pkey pid)) "used" = some u ∧ (u == "1") = p.used := by
  simp only [getP] at h
  by_cases hnil : st.hgetall (pkey pid) = []
  · rw [if_pos hnil] at h
    exact absurd h (by simp)
  · rw [if_neg hnil] at h
    refine ⟨hnil, ?_⟩
    split at h
    case _ i t r th cp ca u heq1 heq2 heq3 heq4 heq5 heq6 heq7 =>
      simp only [Option.some.injEq] at h
      subst h
      exact ⟨ca, u, heq1, heq2, heq3, heq4, heq5, heq6, rfl, heq7, rfl⟩
    all_goals simp at h

theorem hget_of_getP {st : RedisStore} {pid : String} {p : Proposal}
    (h : getP st pid = some p) :
    ∃ u, st.hget (pkey pid) "used" = some u ∧ (u == "1") = p.used := by
  obtain ⟨hnil, ca, u, _, _, _, _, _, _, _, hu, hub⟩ := getP_elim h
  obtain ⟨e, he, hef⟩ := lookup_of_hgetall_ne_nil hnil
  refine ⟨u, ?_, hub⟩
  simp [RedisStore.hget, he, hef, hu]

theorem markUsed_of_used {st : RedisStore} {pid : String}
    (h : st.hget (pkey pid) "used" = some "1") :
    markUsed st pid = (Except.error (ConfirmError.alreadyUsed (alreadyUsedMsg pid)), st) := by
  simp [markUsed, casUsed, h]

theorem markUsed_of_unused {st : RedisStore} {pid : String}
    (h : ¬st.hget (pkey pid) "used" = some "1") :
    markUsed st pid = (Except.ok (), st.hsetMapping (pkey pid) [("used", "1")]) := by
  simp [markUsed, casUsed, h]

/-- Marking an existing, well-formed proposal used leaves everything but the
`used` field untouched: `getP` returns the same proposal with `used := true`. -/
theorem getP_hsetUsed {st : RedisStore} {pid : String} {p : Proposal}
    (h : getP st pid = some p) :
    getP (st.hsetMapping (pkey pid) [("used", "1")]) pid = some {p with used := true} := by
  obtain ⟨hnil, ca, u, h1, h2, h3, h4, h5, h6, hca, h7, hub⟩ := getP_elim h
  obtain ⟨e, he, hef⟩ := lookup_of_hgetall_ne_nil hnil
  have hlk := lookup_hsetMapping_self_present he [("used", "1")]
  simp only [List.foldl_cons, List.foldl_nil] at hlk
  have hga : (st.hsetMapping (pkey pid) [("used", "1")]).hgetall (pkey pid) =
      alistSet e.fields "used" "1" := hgetall_eq_fields hlk
  rw [hef] at hga
  simp only [getP, hga]
  rw [if_neg (alistSet_ne_nil _ _ _)]
  rw [alistGet_alistSet_ne _ _ _ _ (by decide), h1]
  rw [alistGet_alistSet_ne _ _ _ _ (by decide), h2]
  rw [alistGet_alistSet_ne _ _ _ _ (by decide), h3]
  rw [alistGet_alistSet_ne _ _ _ _ (by decide), h4]
  rw [alistGet_alistSet_ne _ _ _ _ (by decide), h5]
  rw [alistGet_alistSet_ne _ _ _ _ (by decide), h6]
  rw [alistGet_alistSet_self]
  simp [hca]

/-- Round trip: `_get` after `_put` parses back exactly the stored proposal. -/
theorem getP_put (ttl : Nat) (st : RedisStore) (p : Proposal) :
    getP (put ttl st p) p.proposal_id = some p := by
  have hfields : ∀ (base fields : List (String × String)),
      fields = (putFields p).foldl (fun fs fv => alistSet fs fv.1 fv.2) base →
      alistGet fields "proposal_id" = some p.proposal_id ∧
      alistGet fields "table" = some p.table ∧
      alistGet fields "record_id" = some p.record_id ∧
      alistGet fields "token_hash" = some p.token_hash ∧
      alistGet fields "confirm_phrase" = some p.confirm_phrase ∧
      alistGet fields "created_at" = some (natStr p.created_at) ∧
      alistGet fields "used" = some (if p.used then "1" else "0") := by
    intro base fields hf
    subst hf
    simp only [putFields, List.foldl_cons, List.foldl_nil]
    refine ⟨?_, ?_, ?_, ?_, ?_, ?_, ?_⟩ <;>
      simp [alistGet_alistSet_ne, alistGet_alistSet_self]
  have hmain : ∃ (e : RedisEntry) (base : List (String × String)),
      (put ttl st p).lookup (pkey p.proposal_id) = some e ∧
      e.fields = (putFields p).foldl (fun fs fv => alistSet fs fv.1 fv.2) base := by
    cases h0 : st.lookup (pkey p.proposal_id) with
    | none =>
      have h1 := lookup_hsetMapping_self_absent h0 (putFields p)
      have h2 := lookup_expire_self_present h1 ttl
      exact ⟨_, [], h2, rfl⟩
    | some e0 =>
      have h1 := lookup_hsetMapping_self_present h0 (putFields p)
      have h2 := lookup_expire_self_present h1 ttl
      exact ⟨_, e0.fields, h2, rfl⟩
  obtain ⟨e, base, he, hb⟩ := hmain
  obtain ⟨g1, g2, g3, g4, g5, g6, g7⟩ := hfields base e.fields hb
  have hne : e.fields ≠ [] := fun hh => by rw [hh] at g1; exact absurd g1 (by simp [alistGet])
  simp only [getP, hgetall_eq_fields he]
  rw [if_neg hne, g1, g2, g3, g4, g5, g6, g7]
  have hbeq : ((if p.used then "1" else "0") == "1") = p.used := by
    cases p.used <;> rfl
  simp [parseNat_natStr, hbeq]

theorem hget_hsetUsed (st : RedisStore) (k : String) :
    (st.hsetMapping k [("used", "1")]).hget k "used" = some "1" := by
  cases h : st.lookup k with
  | none =>
    have h1 := lookup_hsetMapping_self_absent h [("used", "1")]
    simp only [List.foldl_cons, List.foldl_nil] at h1
    simp [RedisStore.hget, h1, alistGet_alistSet_self]
  | some e =>
    have h1 := lookup_hsetMapping_self_present h [("used", "1")]
    simp only [List.foldl_cons, List.foldl_nil] at h1
    simp [RedisStore.hget, h1, alistGet_alistSet_self]

theorem markUsed_cases {st : RedisStore} {pid : String} {p : Proposal}
    (hp : getP st pid = some p) :
    (p.used = true → markUsed st pid =
      (Except.error (ConfirmError.alreadyUsed (alreadyUsedMsg pid)), st)) ∧
    (p.used = false → markUsed st pid =
      (Except.ok (), st.hsetMapping (pkey pid) [("used", "1")])) := by
  obtain ⟨u, hu, hub⟩ := hget_of_getP hp
  constructor
  · intro h1
    rw [h1] at hub
    have : u = "1" := by simpa using hub
    exact markUsed_of_used (this ▸ hu)
  · intro h0
    rw [h0] at hub
    have hne : u ≠ "1" := by simpa using hub
    refine markUsed_of_unused ?_
    rw [hu]
    simp [hne]

/-- The store left behind by `validate_and_consume` on a present, unexpired,
unused proposal: the `used` field has been set, whatever the credentials. -/
theorem validate_store_after_first (sha : String → List Nat) (ttl : Nat) (st : RedisStore)
    (now : Nat) (pid tok phr : String) (p : Proposal)
    (hp : getP st pid = some p) (hunused : p.used = false)
    (hfresh : ¬now - p.created_at > ttl) :
    (validateAndConsume sha ttl st now pid tok phr).2 =
      st.hsetMapping (pkey pid) [("used", "1")] := by
  simp only [validateAndConsume]
  rw [hp]
  simp only [if_neg hfresh]
  rw [(markUsed_cases hp).2 hunused]
  by_cases hph : phr ≠ p.confirm_phrase
  · simp [hph]
  · by_cases htk : hashToken sha tok ≠ p.token_hash
    · simp [hph, htk]
    · simp [hph, htk]

/-! ### C1: consumption happens before any credential check -/

/-- **C1.** A stored, unexpired, unused proposal is marked used by the very
first confirm attempt, whatever token and phrase that attempt supplies; a
second attempt with the correct token and phrase then fails with
`AlreadyUsed` instead of succeeding. -/
theorem c1_first_attempt_burns_proposal
    (sha : String → List Nat) (ttl : Nat) (st : RedisStore) (now1 now2 : Nat)
    (pid tok1 phr1 tok2 : String) (p : Proposal)
    (hp : getP st pid = some p) (hunused : p.used = false)
    (hfresh1 : ¬now1 - p.created_at > ttl) (hfresh2 : ¬now2 - p.created_at > ttl)
    (_htok : hashToken sha tok2 = p.token_hash) :
    ((validateAndConsume sha ttl st now1 pid tok1 phr1).2).hget (pkey pid) "used" = some "1" ∧
    (validateAndConsume sha ttl
        (validateAndConsume sha ttl st now1 pid tok1 phr1).2
        now2 pid tok2 p.confirm_phrase).1 =
      Except.error (ConfirmError.alreadyUsed (alreadyUsedMsg pid)) := by
  have hst1 := validate_store_after_first sha ttl st now1 pid tok1 phr1 p hp hunused hfresh1
  rw [hst1]
  refine ⟨hget_hsetUsed st (pkey pid), ?_⟩
  have hp1 : getP (st.hsetMapping (pkey pid) [("used", "1")]) pid =
      some {p with used := true} := getP_hsetUsed hp
  simp only [validateAndConsume]
  rw [hp1]
  simp only [if_neg hfresh2]
  rw [markUsed_of_used (hget_hsetUsed st (pkey pid))]

/-! ### C4: fixed check order, one of six outcomes -/

inductive OutcomeKind where
  | notFound | expired | alreadyUsed | phraseMismatch | tokenMismatch | success
deriving DecidableEq, Repr

def errKind : Except ConfirmError Proposal → OutcomeKind
  | .ok _ => .success
  | .error (.notFound _) => .notFound
  | .error (.expired _) => .expired
  | .error (.alreadyUsed _) => .alreadyUsed
  | .error (.phraseMismatch _) => .phraseMismatch
  | .error (.tokenMismatch _) => .tokenMismatch

/-- The outcome as the claim words it: absent → NotFound; else over-age →
Expired; else already used → AlreadyUsed; else phrase mismatch →
PhraseMismatch; else token-hash mismatch → TokenMismatch; else success.
(Spec-side definition, written from the claim, to be compared with the
behaviour of `validateAndConsume`.) -/
def claimedOutcome (sha : String → List Nat) (ttl : Nat) (st : RedisStore) (now : Nat)
    (pid tok phr : String) : OutcomeKind :=
  match getP st pid with
  | none => .notFound
  | some p =>
    if now - p.created_at > ttl then .expired
    else if p.used then .alreadyUsed
    else if phr ≠ p.confirm_phrase then .phraseMismatch
    else if hashToken sha tok ≠ p.token_hash then .tokenMismatch
    else .success

/-- The non-crashing restriction of the call matches the claimed decision
order NotFound, Expired, AlreadyUsed, PhraseMismatch, TokenMismatch,
success on every input (helper for the amended C4 below, which adds the
`KeyError` escape that a partially populated hash produces). -/
theorem validate_outcome_order (sha : String → List Nat) (ttl : Nat) (st : RedisStore) (now : Nat)
    (pid tok phr : String) :
    errKind (validateAndConsume sha ttl st now pid tok phr).1 =
      claimedOutcome sha ttl st now pid tok phr := by
  simp only [validateAndConsume, claimedOutcome]
  cases hp : getP st pid with
  | none => rfl
  | some p =>
    by_cases hexp : now - p.created_at > ttl
    · simp [hexp, errKind]
    · simp only [if_neg hexp]
      cases hused : p.used with
      | true =>
        rw [(markUsed_cases hp).1 hused]
        simp [errKind]
      | false =>
        rw [(markUsed_cases hp).2 hused]
        by_cases hph : phr ≠ p.confirm_phrase
        · simp [hph, errKind]
        · by_cases htk : hashToken sha tok ≠ p.token_hash
          · simp [hph, htk, errKind]
          · simp [hph, htk, errKind]

/-! ### C5: over-age proposals are deleted and fail Expired -/

theorem getP_deleteP (st : RedisStore) (pid : String) : getP (deleteP st pid) pid = none := by
  simp [getP, deleteP, RedisStore.hgetall, lookup_del_self]

/-- **C5.** A stored proposal whose age exceeds the TTL at lookup time makes
`validate_and_consume` delete the record and fail with `Expired`; a
subsequent lookup of the same proposal id finds nothing. -/
theorem c5_expired_deleted (sha : String → List Nat) (ttl : Nat) (st : RedisStore) (now : Nat)
    (pid tok phr : String) (p : Proposal)
    (hp : getP st pid = some p) (hexp : now - p.created_at > ttl) :
    (validateAndConsume sha ttl st now pid tok phr).1 =
      Except.error (ConfirmError.expired (expiredMsg pid (now - p.created_at) ttl)) ∧
    getP (validateAndConsume sha ttl st now pid tok phr).2 pid = none := by
  simp only [validateAndConsume]
  rw [hp]
  simp only [if_pos hexp]
  exact ⟨by trivial, getP_deleteP st pid⟩

/-! ### Concrete scaffolding for witnesses -/

/-- A concrete stand-in digest function for witness instantiations. -/
def shaZ : String → List Nat := fun _ => List.replicate 32 0

def emptyStore : RedisStore := ⟨[]⟩

/-- A sample stored proposal used by witness instantiations. -/
def pW : Proposal :=
  ⟨"p1", "contacts", "a1b2c3d4", hashToken shaZ (tokenUrlsafe (List.replicate 32 0)),
    CONFIRM_PHRASE, 0, false⟩

def stW : RedisStore := put 120 emptyStore pW

theorem getP_stW : getP stW "p1" = some pW := getP_put 120 emptyStore pW

/-- Witness for C1 at a concrete store, with a wrong first token. -/
theorem c1_witness :
    ((validateAndConsume shaZ 120 stW 5 "p1" "wrong-token" "CONFIRM DELETE").2).hget
        (pkey "p1") "used" = some "1" ∧
    (validateAndConsume shaZ 120
        (validateAndConsume shaZ 120 stW 5 "p1" "wrong-token" "CONFIRM DELETE").2
        10 "p1" (tokenUrlsafe (List.replicate 32 0)) pW.confirm_phrase).1 =
      Except.error (ConfirmError.alreadyUsed (alreadyUsedMsg "p1")) :=
  c1_first_attempt_burns_proposal shaZ 120 stW 5 10 "p1" "wrong-token" "CONFIRM DELETE"
    (tokenUrlsafe (List.replicate 32 0)) pW getP_stW rfl (by decide) (by decide) rfl

/-! ### C6, C7, C8: creation, hashing, round trip -/

theorem tokenUrlsafe_length {bytes : List Nat} (hbytes : bytes.length = 32) :
    (tokenUrlsafe bytes).length = 43 := by
  have h := b64Chars_length bytes
  rw [hbytes] at h
  norm_num at h
  simp [tokenUrlsafe, h]

theorem hashToken_length {sha : String → List Nat} {t : String}
    (hsha : (sha t).length = 32) : (hashToken sha t).length = 64 := by
  simp [hashToken, hexChars_length, hsha]

theorem hashToken_ne_tokenUrlsafe {sha : String → List Nat} {bytes : List Nat}
    (hsha : (sha (tokenUrlsafe bytes)).length = 32) (hbytes : bytes.length = 32) :
    hashToken sha (tokenUrlsafe bytes) ≠ tokenUrlsafe bytes := by
  intro h
  have h1 := hashToken_length hsha
  have h2 := tokenUrlsafe_length hbytes
  rw [h] at h1
  omega

theorem hget_tokenHash_of_getP {st : RedisStore} {pid : String} {p : Proposal}
    (h : getP st pid = some p) :
    st.hget (pkey pid) "token_hash" = some p.token_hash := by
  obtain ⟨hnil, ca, u, h1, h2, h3, h4, h5, h6, hca, h7, hub⟩ := getP_elim h
  obtain ⟨e, he, hef⟩ := lookup_of_hgetall_ne_nil hnil
  simp [RedisStore.hget, he, hef, h4]

theorem foldl_putFields_nil (p : Proposal) :
    (putFields p).foldl (fun fs fv => alistSet fs fv.1 fv.2) [] = putFields p := by
  simp [putFields, alistSet]

/-- **C6.** `create_proposal` returns `(proposal_id, confirm_token,
confirm_phrase)` and persists exactly one record under the proposal key:
all seven serialised fields with `used = "0"`, the token hash (the SHA-256
hex digest of the returned token), the fixed phrase, the given table and
record id, and a store TTL equal to the configured confirm-window seconds
(whose configured default is 120); no field value equals the plaintext
token. (The identifiers `table`, `record_id`, `pid` and the timestamp are
chosen before and independently of the 256-bit random token, which the
inequality hypotheses record.) -/
theorem c6_create_persists (sha : String → List Nat) (ttl : Nat) (st : RedisStore) (now : Nat)
    (table rid pid : String) (tokenBytes : List Nat)
    (hsha : (sha (tokenUrlsafe tokenBytes)).length = 32) (hbytes : tokenBytes.length = 32)
    (hfresh : st.lookup (pkey pid) = none)
    (hpid : pid ≠ tokenUrlsafe tokenBytes) (htab : table ≠ tokenUrlsafe tokenBytes)
    (hrid : rid ≠ tokenUrlsafe tokenBytes) (hdate : natStr now ≠ tokenUrlsafe tokenBytes) :
    (createProposal sha ttl st now table rid pid tokenBytes).1 =
      (pid, tokenUrlsafe tokenBytes, CONFIRM_PHRASE) ∧
    (createProposal sha ttl st now table rid pid tokenBytes).2.lookup (pkey pid) =
      some ⟨putFields ⟨pid, table, rid, hashToken sha (tokenUrlsafe tokenBytes),
        CONFIRM_PHRASE, now, false⟩, some ttl⟩ ∧
    (∀ k, k ≠ pkey pid →
      (createProposal sha ttl st now table rid pid tokenBytes).2.lookup k = st.lookup k) ∧
    (∀ fv ∈ putFields ⟨pid, table, rid, hashToken sha (tokenUrlsafe tokenBytes),
        CONFIRM_PHRASE, now, false⟩, fv.2 ≠ tokenUrlsafe tokenBytes) ∧
    confirmTokenTtlSecondsDefault = 120 := by
  refine ⟨rfl, ?_, ?_, ?_, rfl⟩
  · have h1 := lookup_hsetMapping_self_absent hfresh
      (putFields ⟨pid, table, rid, hashToken sha (tokenUrlsafe tokenBytes),
        CONFIRM_PHRASE, now, false⟩)
    rw [foldl_putFields_nil] at h1
    have h2 := lookup_expire_self_present h1 ttl
    exact h2
  · intro k hk
    simp only [createProposal, put]
    rw [lookup_expire_ne hk, lookup_hsetMapping_ne hk]
  · intro fv hfv
    have h43 : (tokenUrlsafe tokenBytes).length = 43 := tokenUrlsafe_length hbytes
    have hph : CONFIRM_PHRASE ≠ tokenUrlsafe tokenBytes := by
      intro hh
      rw [← hh] at h43
      exact absurd h43 (by decide)
    have hz : ("0" : String) ≠ tokenUrlsafe tokenBytes := by
      intro hh
      rw [← hh] at h43
      exact absurd h43 (by decide)
    have hth : hashToken sha (tokenUrlsafe tokenBytes) ≠ tokenUrlsafe tokenBytes :=
      hashToken_ne_tokenUrlsafe hsha hbytes
    simp only [putFields, List.mem_cons, List.not_mem_nil, or_false] at hfv
    rcases hfv with h | h | h | h | h | h | h <;> subst h
    · exact hpid
    · exact htab
    · exact hrid
    · exact hth
    · exact hph
    · exact hdate
    · exact hz

/-- Witness for C6 with concrete identifiers, bytes and store. -/
theorem c6_witness :
    (createProposal shaZ 120 emptyStore 0 "contacts" "r1" "p6" (List.replicate 32 0)).1 =
      ("p6", tokenUrlsafe (List.replicate 32 0), CONFIRM_PHRASE) ∧
    (createProposal shaZ 120 emptyStore 0 "contacts" "r1" "p6" (List.replicate 32 0)).2.lookup
        (pkey "p6") =
      some ⟨putFields ⟨"p6", "contacts", "r1",
        hashToken shaZ (tokenUrlsafe (List.replicate 32 0)), CONFIRM_PHRASE, 0, false⟩,
        some 120⟩ ∧
    (∀ k, k ≠ pkey "p6" →
      (createProposal shaZ 120 emptyStore 0 "contacts" "r1" "p6"
        (List.replicate 32 0)).2.lookup k = emptyStore.lookup k) ∧
    (∀ fv ∈ putFields ⟨"p6", "contacts", "r1",
        hashToken shaZ (tokenUrlsafe (List.replicate 32 0)), CONFIRM_PHRASE, 0, false⟩,
      fv.2 ≠ tokenUrlsafe (List.replicate 32 0)) ∧
    confirmTokenTtlSecondsDefault = 120 :=
  c6_create_persists shaZ 120 emptyStore 0 "contacts" "r1" "p6" (List.replicate 32 0)
    (by decide) (by decide) rfl (by decide) (by decide) (by decide) (by decide)

/-- **C7.** The token hash stored by `create_proposal` never equals the
plaintext token it returns (the hex digest has 64 characters, the URL-safe
token 43). -/
theorem c7_hash_ne_plaintext (sha : String → List Nat) (ttl : Nat) (st : RedisStore) (now : Nat)
    (table rid pid : String) (tokenBytes : List Nat)
    (hsha : (sha (tokenUrlsafe tokenBytes)).length = 32) (hbytes : tokenBytes.length = 32) :
    ((createProposal sha ttl st now table rid pid tokenBytes).2).hget (pkey pid) "token_hash" =
      some (hashToken sha (tokenUrlsafe tokenBytes)) ∧
    hashToken sha (tokenUrlsafe tokenBytes) ≠
      (createProposal sha ttl st now table rid pid tokenBytes).1.2.1 := by
  constructor
  · exact hget_tokenHash_of_getP (getP_put ttl st _)
  · exact hashToken_ne_tokenUrlsafe hsha hbytes

/-- Witness for C7 at concrete bytes and digest function. -/
theorem c7_witness :
    ((createProposal shaZ 120 emptyStore 0 "contacts" "r1" "p7" (List.replicate 32 0)).2).hget
        (pkey "p7") "token_hash" =
      some (hashToken shaZ (tokenUrlsafe (List.replicate 32 0))) ∧
    hashToken shaZ (tokenUrlsafe (List.replicate 32 0)) ≠
      (createProposal shaZ 120 emptyStore 0 "contacts" "r1" "p7" (List.replicate 32 0)).1.2.1 :=
  c7_hash_ne_plaintext shaZ 120 emptyStore 0 "contacts" "r1" "p7" (List.replicate 32 0)
    (by decide) (by decide)

/-- **C8.** Round trip: confirming with exactly the values returned by
`create_proposal`, within the TTL window, succeeds and returns the proposal
with `table` and `record_id` carried through unmodified. -/
theorem c8_round_trip (sha : String → List Nat) (ttl : Nat) (st : RedisStore)
    (now1 now2 : Nat) (table rid pid : String) (tokenBytes : List Nat)
    (hwin : ¬now2 - now1 > ttl) :
    ∃ q : Proposal,
      (validateAndConsume sha ttl (createProposal sha ttl st now1 table rid pid tokenBytes).2
          now2 (createProposal sha ttl st now1 table rid pid tokenBytes).1.1
          (createProposal sha ttl st now1 table rid pid tokenBytes).1.2.1
          (createProposal sha ttl st now1 table rid pid tokenBytes).1.2.2).1 = Except.ok q ∧
      q.table = table ∧ q.record_id = rid := by
  refine ⟨⟨pid, table, rid, hashToken sha (tokenUrlsafe tokenBytes), CONFIRM_PHRASE, now1,
    false⟩, ?_, rfl, rfl⟩
  have hp : getP (createProposal sha ttl st now1 table rid pid tokenBytes).2 pid =
      some ⟨pid, table, rid, hashToken sha (tokenUrlsafe tokenBytes), CONFIRM_PHRASE, now1,
        false⟩ := getP_put ttl st _
  have hfresh : ¬now2 - (⟨pid, table, rid, hashToken sha (tokenUrlsafe tokenBytes),
      CONFIRM_PHRASE, now1, false⟩ : Proposal).created_at > ttl := hwin
  have hmk := (markUsed_cases hp).2 rfl
  simp only [createProposal] at hp hmk ⊢
  simp only [validateAndConsume, hp, if_neg hfresh, hmk]
  simp [CONFIRM_PHRASE]

/-- Witness for C8 at concrete values. -/
theorem c8_witness :
    ∃ q : Proposal,
      (validateAndConsume shaZ 120
          (createProposal shaZ 120 emptyStore 0 "contacts" "r1" "p8" (List.replicate 32 0)).2
          60 (createProposal shaZ 120 emptyStore 0 "contacts" "r1" "p8"
            (List.replicate 32 0)).1.1
          (createProposal shaZ 120 emptyStore 0 "contacts" "r1" "p8"
            (List.replicate 32 0)).1.2.1
          (createProposal shaZ 120 emptyStore 0 "contacts" "r1" "p8"
            (List.replicate 32 0)).1.2.2).1 = Except.ok q ∧
      q.table = "contacts" ∧ q.record_id = "r1" :=
  c8_round_trip shaZ 120 emptyStore 0 60 "contacts" "r1" "p8" (List.replicate 32 0) (by decide)

/-- Witness for C5 at a concrete store and a time past the TTL. -/
theorem c5_witness :
    (validateAndConsume shaZ 120 stW 121 "p1" "tok" "CONFIRM DELETE").1 =
      Except.error (ConfirmError.expired (expiredMsg "p1" 121 120)) ∧
    getP (validateAndConsume shaZ 120 stW 121 "p1" "tok" "CONFIRM DELETE").2 "p1" = none :=
  c5_expired_deleted shaZ 120 stW 121 "p1" "tok" "CONFIRM DELETE" pW getP_stW (by decide)

/-! ### C10: store-native eviction between lookup and consumption -/

/-- `validate_and_consume` with one environment event injected between its
`_get` round trip and its `_mark_used` round trip: the store evicts the key
(native TTL expiry, modelled as a delete). All other statements are exactly
those of `validateAndConsume`, operating on the stale in-memory `proposal`. -/
def validateWithEviction (sha : String → List Nat) (ttl : Nat) (st : RedisStore) (now : Nat)
    (pid tok phr : String) : Except ConfirmError Proposal × RedisStore :=
  match getP st pid with
  | none => (Except.error (ConfirmError.notFound (notFoundMsg pid)), st)
  | some proposal =>
    let age := now - proposal.created_at
    if age > ttl then
      (Except.error (ConfirmError.expired (expiredMsg pid age ttl)), deleteP st pid)
    else
      let stEv := deleteP st pid
      match markUsed stEv pid with
      | (Except.error e, st1) => (Except.error e, st1)
      | (Except.ok _, st1) =>
        if phr ≠ proposal.confirm_phrase then
          (Except.error (ConfirmError.phraseMismatch
            (phraseMismatchMsg proposal.confirm_phrase phr)), st1)
        else if hashToken sha tok ≠ proposal.token_hash then
          (Except.error (ConfirmError.tokenMismatch tokenMismatchMsg), st1)
        else
          (Except.ok proposal, st1)

theorem hget_deleteP_self (st : RedisStore) (pid : String) (f : String) :
    (deleteP st pid).hget (pkey pid) f = none := by
  simp [RedisStore.hget, deleteP, lookup_del_self]

/-- **C10.** The CAS script does not fail on an absent key: it reports
"newly consumed" and creates a fresh record holding only `used = '1'` with no
TTL; consequently a `validate_and_consume` whose proposal is evicted between
lookup and consumption still succeeds against the stale in-memory copy and
leaves that permanent marker key behind. -/
theorem c10_eviction_between_steps (sha : String → List Nat) (ttl : Nat) (st : RedisStore)
    (now : Nat) (pid tok phr : String) (p : Proposal)
    (hp : getP st pid = some p) (hfresh : ¬now - p.created_at > ttl)
    (hphr : phr = p.confirm_phrase) (htok : hashToken sha tok = p.token_hash) :
    (casUsed (deleteP st pid) (pkey pid)).1 = 0 ∧
    (validateWithEviction sha ttl st now pid tok phr).1 = Except.ok p ∧
    ((validateWithEviction sha ttl st now pid tok phr).2).lookup (pkey pid) =
      some ⟨[("used", "1")], none⟩ := by
  have hcge : (deleteP st pid).hget (pkey pid) "used" = none := hget_deleteP_self st pid "used"
  have hcas : casUsed (deleteP st pid) (pkey pid) =
      (0, (deleteP st pid).hsetMapping (pkey pid) [("used", "1")]) := by
    simp [casUsed, hcge]
  have hmk : markUsed (deleteP st pid) pid =
      (Except.ok (), (deleteP st pid).hsetMapping (pkey pid) [("used", "1")]) := by
    refine markUsed_of_unused ?_
    rw [hcge]
    simp
  have hlk : ((deleteP st pid).hsetMapping (pkey pid) [("used", "1")]).lookup (pkey pid) =
      some ⟨[("used", "1")], none⟩ := by
    have h0 : (deleteP st pid).lookup (pkey pid) = none := lookup_del_self st (pkey pid)
    have h1 := lookup_hsetMapping_self_absent h0 [("used", "1")]
    simpa [alistSet] using h1
  refine ⟨by rw [hcas], ?_, ?_⟩ <;>
  · simp only [validateWithEviction, hp, if_neg hfresh, hmk, hphr, htok]
    simp [hlk]

/-- Witness for C10 at a concrete store with correct credentials. -/
theorem c10_witness :
    (casUsed (deleteP stW "p1") (pkey "p1")).1 = 0 ∧
    (validateWithEviction shaZ 120 stW 5 "p1" (tokenUrlsafe (List.replicate 32 0))
        "CONFIRM DELETE").1 = Except.ok pW ∧
    ((validateWithEviction shaZ 120 stW 5 "p1" (tokenUrlsafe (List.replicate 32 0))
        "CONFIRM DELETE").2).lookup (pkey "p1") = some ⟨[("used", "1")], none⟩ :=
  c10_eviction_between_steps shaZ 120 stW 5 "p1" (tokenUrlsafe (List.replicate 32 0))
    "CONFIRM DELETE" pW getP_stW (by decide) rfl rfl

/-! ### C3: the used flag is monotone across the public operations -/

theorem pkey_inj {a b : String} (h : pkey a = pkey b) : a = b := by
  have h2 := congrArg String.data h
  simp only [pkey, String.data_append] at h2
  exact String.ext (List.append_cancel_left h2)

theorem hget_hsetMapping_ne_key {st : RedisStore} {k k' : String} (h : k' ≠ k)
    (m : List (String × String)) (f : String) :
    (st.hsetMapping k m).hget k' f = st.hget k' f := by
  simp [RedisStore.hget, lookup_hsetMapping_ne h]

theorem hget_expire_ne_key {st : RedisStore} {k k' : String} (h : k' ≠ k) (t : Nat) (f : String) :
    (st.expire k t).hget k' f = st.hget k' f := by
  simp [RedisStore.hget, lookup_expire_ne h]

theorem hget_del_ne_key {st : RedisStore} {k k' : String} (h : k' ≠ k) (f : String) :
    (st.del k).hget k' f = st.hget k' f := by
  simp [RedisStore.hget, lookup_del_ne st h]

theorem hget_put_ne {st : RedisStore} {p : Proposal} {pid : String} (ttl : Nat)
    (h : p.proposal_id ≠ pid) (f : String) :
    (put ttl st p).hget (pkey pid) f = st.hget (pkey pid) f := by
  have hk : pkey pid ≠ pkey p.proposal_id := fun hh => h (pkey_inj hh).symm
  simp only [put]
  rw [hget_expire_ne_key hk, hget_hsetMapping_ne_key hk]

theorem hget_used_put_self (ttl : Nat) (st : RedisStore) (p : Proposal) :
    (put ttl st p).hget (pkey p.proposal_id) "used" = some (if p.used then "1" else "0") := by
  have hfields : ∀ (base fields : List (String × String)),
      fields = (putFields p).foldl (fun fs fv => alistSet fs fv.1 fv.2) base →
      alistGet fields "used" = some (if p.used then "1" else "0") := by
    intro base fields hf
    subst hf
    simp only [putFields, List.foldl_cons, List.foldl_nil]
    exact alistGet_alistSet_self ..
  have hmain : ∃ (e : RedisEntry) (base : List (String × String)),
      (put ttl st p).lookup (pkey p.proposal_id) = some e ∧
      e.fields = (putFields p).foldl (fun fs fv => alistSet fs fv.1 fv.2) base := by
    cases h0 : st.lookup (pkey p.proposal_id) with
    | none =>
      exact ⟨_, [], lookup_expire_self_present
        (lookup_hsetMapping_self_absent h0 (putFields p)) ttl, rfl⟩
    | some e0 =>
      exact ⟨_, e0.fields, lookup_expire_self_present
        (lookup_hsetMapping_self_present h0 (putFields p)) ttl, rfl⟩
  obtain ⟨e, base, he, hb⟩ := hmain
  simp [RedisStore.hget, he, hfields base e.fields hb]

/-- The store after `validate_and_consume`: unchanged, or the key deleted
(expiry), or the key's `used` field set (consumption). -/
theorem validate_store_shape (sha : String → List Nat) (ttl : Nat) (st : RedisStore) (now : Nat)
    (pid tok phr : String) :
    (validateAndConsume sha ttl st now pid tok phr).2 = st ∨
    (validateAndConsume sha ttl st now pid tok phr).2 = deleteP st pid ∨
    (validateAndConsume sha ttl st now pid tok phr).2 =
      st.hsetMapping (pkey pid) [("used", "1")] := by
  simp only [validateAndConsume]
  cases hg : getP st pid with
  | none => left; rfl
  | some p =>
    by_cases hexp : now - p.created_at > ttl
    · right; left; simp [hexp]
    · simp only [if_neg hexp]
      by_cases hc : st.hget (pkey pid) "used" = some "1"
      · rw [markUsed_of_used hc]
        left; rfl
      · rw [markUsed_of_unused hc]
        by_cases hph : phr ≠ p.confirm_phrase
        · right; right; simp [hph]
        · by_cases htk : hashToken sha tok ≠ p.token_hash
          · right; right; simp [hph, htk]
          · right; right; simp [hph, htk]

/-- The public operations of the confirmation subsystem
(`create_proposal`, `validate_and_consume`, `_get` as read, `_delete`),
with generated randomness and call times as explicit data. -/
inductive PubOp where
  | create (table rid pid : String) (tokenBytes : List Nat) (now : Nat)
  | validate (pid tok phr : String) (now : Nat)
  | read (pid : String)
  | delete (pid : String)
deriving DecidableEq, Repr

def applyOp (sha : String → List Nat) (ttl : Nat) (st : RedisStore) : PubOp → RedisStore
  | .create table rid pid tokenBytes now =>
    (createProposal sha ttl st now table rid pid tokenBytes).2
  | .validate pid tok phr now => (validateAndConsume sha ttl st now pid tok phr).2
  | .read _ => st
  | .delete pid => deleteP st pid

def runOps (sha : String → List Nat) (ttl : Nat) (st : RedisStore) : List PubOp → RedisStore
  | [] => st
  | op :: ops => runOps sha ttl (applyOp sha ttl st op) ops

/-- The raw `used` field of a proposal's hash. -/
def usedVal (st : RedisStore) (pid : String) : Option String :=
  st.hget (pkey pid) "used"

theorem usedVal_step (sha : String → List Nat) (ttl : Nat) (st : RedisStore) (pid : String)
    (op : PubOp)
    (hop : ∀ table rid tokenBytes now, op ≠ PubOp.create table rid pid tokenBytes now)
    (h1 : usedVal st pid = some "1" ∨ usedVal st pid = none) :
    usedVal (applyOp sha ttl st op) pid = some "1" ∨
    usedVal (applyOp sha ttl st op) pid = none := by
  cases op with
  | create table rid pid' tokenBytes now =>
    have hne : pid' ≠ pid := fun hh => hop table rid tokenBytes now (by rw [hh])
    simp only [applyOp, createProposal]
    rw [show usedVal (put ttl st ⟨pid', table, rid, hashToken sha (tokenUrlsafe tokenBytes),
        CONFIRM_PHRASE, now, false⟩) pid = st.hget (pkey pid) "used" from
      hget_put_ne ttl hne "used"]
    exact h1
  | validate pid' tok phr now =>
    by_cases hpe : pid' = pid
    · subst hpe
      rcases validate_store_shape sha ttl st now pid' tok phr with hs | hs | hs <;>
        simp only [applyOp, hs]
      · exact h1
      · right
        simp [usedVal, RedisStore.hget, deleteP, lookup_del_self]
      · left
        exact hget_hsetUsed st (pkey pid')
    · have hk : pkey pid ≠ pkey pid' := fun hh => hpe (pkey_inj hh).symm
      rcases validate_store_shape sha ttl st now pid' tok phr with hs | hs | hs <;>
        simp only [applyOp, hs]
      · exact h1
      · rw [show usedVal (deleteP st pid') pid = st.hget (pkey pid) "used" from
          hget_del_ne_key hk "used"]
        exact h1
      · rw [show usedVal (st.hsetMapping (pkey pid') [("used", "1")]) pid =
            st.hget (pkey pid) "used" from hget_hsetMapping_ne_key hk _ "used"]
        exact h1
  | read pid' => exact h1
  | delete pid' =>
    by_cases hpe : pid' = pid
    · subst hpe
      right
      simp [applyOp, usedVal, RedisStore.hget, deleteP, lookup_del_self]
    · have hk : pkey pid ≠ pkey pid' := fun hh => hpe (pkey_inj hh).symm
      simp only [applyOp, deleteP]
      rw [show usedVal (st.del (pkey pid')) pid = st.hget (pkey pid) "used" from
        hget_del_ne_key hk "used"]
      exact h1

/-- **C3.** The `used` flag is `"0"` immediately after creation, and once the
consumption primitive has set it to `"1"` no later public operation ever
returns it to `"0"`: along any trace of public operations that does not
re-create the same proposal id (ids are globally unique per creation), the
flag stays `"1"` until the record disappears, and an absent record never
resurfaces with `used = "0"`. -/
theorem c3_used_monotone (sha : String → List Nat) (ttl : Nat) (pid : String) :
    (∀ (st : RedisStore) (table rid : String) (tokenBytes : List Nat) (now : Nat),
      usedVal (applyOp sha ttl st (PubOp.create table rid pid tokenBytes now)) pid =
        some "0") ∧
    (∀ (ops : List PubOp) (st : RedisStore),
      (∀ table rid tokenBytes now, PubOp.create table rid pid tokenBytes now ∉ ops) →
      usedVal st pid = some "1" →
      usedVal (runOps sha ttl st ops) pid = some "1" ∨
      usedVal (runOps sha ttl st ops) pid = none) := by
  constructor
  · intro st table rid tokenBytes now
    have h := hget_used_put_self ttl st
      ⟨pid, table, rid, hashToken sha (tokenUrlsafe tokenBytes), CONFIRM_PHRASE, now, false⟩
    simpa [applyOp, createProposal, usedVal] using h
  · intro ops
    induction ops with
    | nil =>
      intro st _ h1
      left
      exact h1
    | cons op rest ih =>
      intro st hops h1
      have hopne : ∀ table rid tokenBytes now, op ≠ PubOp.create table rid pid tokenBytes now :=
        fun table rid tokenBytes now hh =>
          hops table rid tokenBytes now (by rw [← hh]; exact List.mem_cons_self op rest)
      have hrest : ∀ table rid tokenBytes now,
          PubOp.create table rid pid tokenBytes now ∉ rest :=
        fun table rid tokenBytes now hh =>
          hops table rid tokenBytes now (List.mem_cons_of_mem op hh)
      have hstep := usedVal_step sha ttl st pid op hopne (Or.inl h1)
      rcases hstep with h2 | h2
      · exact ih (applyOp sha ttl st op) hrest h2
      · -- once the record is gone the flag can only be `"1"` (a CAS marker) or absent
        clear h1
        have : ∀ (ops2 : List PubOp) (st2 : RedisStore),
            (∀ table rid tokenBytes now, PubOp.create table rid pid tokenBytes now ∉ ops2) →
            usedVal st2 pid = some "1" ∨ usedVal st2 pid = none →
            usedVal (runOps sha ttl st2 ops2) pid = some "1" ∨
            usedVal (runOps sha ttl st2 ops2) pid = none := by
          intro ops2
          induction ops2 with
          | nil => intro st2 _ hh; exact hh
          | cons op2 rest2 ih2 =>
            intro st2 hops2 hh
            have hopne2 : ∀ table rid tokenBytes now,
                op2 ≠ PubOp.create table rid pid tokenBytes now :=
              fun table rid tokenBytes now hx =>
                hops2 table rid tokenBytes now (by rw [← hx]; exact List.mem_cons_self op2 rest2)
            have hrest2 : ∀ table rid tokenBytes now,
                PubOp.create table rid pid tokenBytes now ∉ rest2 :=
              fun table rid tokenBytes now hx =>
                hops2 table rid tokenBytes now (List.mem_cons_of_mem op2 hx)
            exact ih2 (applyOp sha ttl st2 op2) hrest2
              (usedVal_step sha ttl st2 pid op2 hopne2 hh)
        exact this rest (applyOp sha ttl st op) hrest (Or.inr h2)

/-- Witness for C3: creation writes `used = "0"`; a marked store stays marked
or disappears across a concrete trace. -/
theorem c3_witness :
    usedVal (applyOp shaZ 120 emptyStore
      (PubOp.create "contacts" "r1" "p3" (List.replicate 32 0) 0)) "p3" = some "0" ∧
    (usedVal (runOps shaZ 120 (stW.hsetMapping (pkey "p1") [("used", "1")])
        [PubOp.validate "p1" "t" "c" 5, PubOp.read "p1"]) "p1" = some "1" ∨
      usedVal (runOps shaZ 120 (stW.hsetMapping (pkey "p1") [("used", "1")])
        [PubOp.validate "p1" "t" "c" 5, PubOp.read "p1"]) "p1" = none) :=
  ⟨(c3_used_monotone shaZ 120 "p3").1 emptyStore "contacts" "r1" (List.replicate 32 0) 0,
    (c3_used_monotone shaZ 120 "p1").2 [PubOp.validate "p1" "t" "c" 5, PubOp.read "p1"]
      (stW.hsetMapping (pkey "p1") [("used", "1")])
      (by intro table rid tokenBytes now h; simp at h)
      (hget_hsetUsed stW (pkey "p1"))⟩

/-! ### C2: exactly-once consumption under concurrent callers

Each `validate_and_consume` call makes two store round trips: the `HGETALL`
of `_get` (with the purely local expiry computation) and the CAS script of
`_mark_used`; the phrase and token comparisons are local. Concurrency is
modelled as an arbitrary interleaving of those atomic round trips: a
schedule is a list of caller indices, and each event advances one caller by
one round trip. There is no client-side lock anywhere in the model; the only
synchronisation is the store-side CAS itself. -/

structure CallerInput where
  now : Nat
  tok : String
  phr : String
deriving DecidableEq, Repr

inductive CallerPhase where
  | start
  | afterLookup (p : Proposal)
  | done (r : Except ConfirmError Proposal)
deriving Repr

structure CallerState where
  input : CallerInput
  phase : CallerPhase
deriving Repr

/-- First store round trip of `validate_and_consume`: `_get`, the local age
check, and the `_delete` of the expiry branch. -/
def lookupStep (ttl : Nat) (st : RedisStore) (pid : String) (inp : CallerInput) :
    CallerPhase × RedisStore :=
  match getP st pid with
  | none => (.done (Except.error (ConfirmError.notFound (notFoundMsg pid))), st)
  | some p =>
    if inp.now - p.created_at > ttl then
      (.done (Except.error (ConfirmError.expired
        (expiredMsg pid (inp.now - p.created_at) ttl))), deleteP st pid)
    else (.afterLookup p, st)

/-- Second store round trip: the CAS of `_mark_used`, followed by the local
phrase and token checks against the proposal read earlier. -/
def casStep (sha : String → List Nat) (st : RedisStore) (pid : String) (inp : CallerInput)
    (p : Proposal) : CallerPhase × RedisStore :=
  match markUsed st pid with
  | (Except.error e, st1) => (.done (Except.error e), st1)
  | (Except.ok _, st1) =>
    if inp.phr ≠ p.confirm_phrase then
      (.done (Except.error (ConfirmError.phraseMismatch
        (phraseMismatchMsg p.confirm_phrase inp.phr))), st1)
    else if hashToken sha inp.tok ≠ p.token_hash then
      (.done (Except.error (ConfirmError.tokenMismatch tokenMismatchMsg)), st1)
    else
      (.done (Except.ok p), st1)

def schedStep (sha : String → List Nat) (ttl : Nat) (pid : String)
    (s : RedisStore × List CallerState) (i : Nat) : RedisStore × List CallerState :=
  match s.2[i]? with
  | none => s
  | some c =>
    match c.phase with
    | .start =>
      let ps := lookupStep ttl s.1 pid c.input
      (ps.2, s.2.set i ⟨c.input, ps.1⟩)
    | .afterLookup q =>
      let ps := casStep sha s.1 pid c.input q
      (ps.2, s.2.set i ⟨c.input, ps.1⟩)
    | .done _ => s

def runSched (sha : String → List Nat) (ttl : Nat) (pid : String) (st : RedisStore)
    (callers : List CallerState) (sched : List Nat) : RedisStore × List CallerState :=
  sched.foldl (schedStep sha ttl pid) (st, callers)

theorem schedStep_miss {sha : String → List Nat} {ttl : Nat} {pid : String}
    (st : RedisStore) (cs : List CallerState) (i : Nat) (hi : cs[i]? = none) :
    schedStep sha ttl pid (st, cs) i = (st, cs) := by
  simp [schedStep, hi]

theorem schedStep_start {sha : String → List Nat} {ttl : Nat} {pid : String}
    (st : RedisStore) (cs : List CallerState) (i : Nat) {inp : CallerInput}
    (hi : cs[i]? = some ⟨inp, CallerPhase.start⟩) :
    schedStep sha ttl pid (st, cs) i =
      ((lookupStep ttl st pid inp).2, cs.set i ⟨inp, (lookupStep ttl st pid inp).1⟩) := by
  simp [schedStep, hi]

theorem schedStep_afterLookup {sha : String → List Nat} {ttl : Nat} {pid : String}
    (st : RedisStore) (cs : List CallerState) (i : Nat) {inp : CallerInput} {q : Proposal}
    (hi : cs[i]? = some ⟨inp, CallerPhase.afterLookup q⟩) :
    schedStep sha ttl pid (st, cs) i =
      ((casStep sha st pid inp q).2, cs.set i ⟨inp, (casStep sha st pid inp q).1⟩) := by
  simp [schedStep, hi]

theorem schedStep_done {sha : String → List Nat} {ttl : Nat} {pid : String}
    (st : RedisStore) (cs : List CallerState) (i : Nat) {inp : CallerInput}
    {r : Except ConfirmError Proposal}
    (hi : cs[i]? = some ⟨inp, CallerPhase.done r⟩) :
    schedStep sha ttl pid (st, cs) i = (st, cs) := by
  simp [schedStep, hi]

/-- Adequacy of the step decomposition: a single caller scheduled for its two
round trips computes exactly `validateAndConsume`. -/
theorem runSched_single_adequate (sha : String → List Nat) (ttl : Nat) (st : RedisStore)
    (pid : String) (inp : CallerInput) :
    runSched sha ttl pid st [⟨inp, CallerPhase.start⟩] [0, 0] =
      ((validateAndConsume sha ttl st inp.now pid inp.tok inp.phr).2,
        [⟨inp, CallerPhase.done
          (validateAndConsume sha ttl st inp.now pid inp.tok inp.phr).1⟩]) := by
  simp only [runSched, List.foldl_cons, List.foldl_nil]
  rw [schedStep_start st [⟨inp, CallerPhase.start⟩] 0 rfl]
  cases hg : getP st pid with
  | none =>
    have hl : lookupStep ttl st pid inp =
        (.done (Except.error (ConfirmError.notFound (notFoundMsg pid))), st) := by
      simp [lookupStep, hg]
    rw [hl]
    simp only [List.set_cons_zero]
    rw [schedStep_done st _ 0 rfl]
    simp [validateAndConsume, hg]
  | some p =>
    by_cases hexp : inp.now - p.created_at > ttl
    · have hl : lookupStep ttl st pid inp =
          (.done (Except.error (ConfirmError.expired
            (expiredMsg pid (inp.now - p.created_at) ttl))), deleteP st pid) := by
        simp [lookupStep, hg, hexp]
      rw [hl]
      simp only [List.set_cons_zero]
      rw [schedStep_done (deleteP st pid) _ 0 rfl]
      simp [validateAndConsume, hg, hexp]
    · have hl : lookupStep ttl st pid inp = (.afterLookup p, st) := by
        simp [lookupStep, hg, hexp]
      rw [hl]
      simp only [List.set_cons_zero]
      rw [schedStep_afterLookup st _ 0 rfl]
      simp only [List.set_cons_zero]
      cases hm : markUsed st pid with
      | mk r st1 =>
        cases r with
        | error e =>
          have hc : casStep sha st pid inp p = (.done (Except.error e), st1) := by
            simp [casStep, hm]
          rw [hc]
          simp [validateAndConsume, hg, hexp, hm]
        | ok u =>
          by_cases hph : inp.phr ≠ p.confirm_phrase
          · have hc : casStep sha st pid inp p =
                (.done (Except.error (ConfirmError.phraseMismatch
                  (phraseMismatchMsg p.confirm_phrase inp.phr))), st1) := by
              simp [casStep, hm, hph]
            rw [hc]
            simp [validateAndConsume, hg, hexp, hm, hph]
          · by_cases htk : hashToken sha inp.tok ≠ p.token_hash
            · have hc : casStep sha st pid inp p =
                  (.done (Except.error (ConfirmError.tokenMismatch tokenMismatchMsg)), st1) := by
                simp [casStep, hm, hph, htk]
              rw [hc]
              simp [validateAndConsume, hg, hexp, hm, hph, htk]
            · have hc : casStep sha st pid inp p = (.done (Except.ok p), st1) := by
                simp [casStep, hm, hph, htk]
              rw [hc]
              simp [validateAndConsume, hg, hexp, hm, hph, htk]

/-- A caller that has finished its call. -/
def isDoneB (c : CallerState) : Bool :=
  match c.phase with
  | .done _ => true
  | _ => false

/-- A caller that finished with `AlreadyUsed`: its CAS lost the race. -/
def isAUB (c : CallerState) : Bool :=
  match c.phase with
  | .done (Except.error (ConfirmError.alreadyUsed _)) => true
  | _ => false

/-- A caller that observed the unused-to-used transition: its CAS reported
"newly consumed", so it went on to the credential checks (success, phrase
mismatch or token mismatch). -/
def isConsB (c : CallerState) : Bool :=
  match c.phase with
  | .done (Except.ok _) => true
  | .done (Except.error (ConfirmError.phraseMismatch _)) => true
  | .done (Except.error (ConfirmError.tokenMismatch _)) => true
  | _ => false

theorem isConsB_false_of_not_done {c : CallerState} (h : isDoneB c = false) :
    isConsB c = false := by
  obtain ⟨inp, ph⟩ := c
  cases ph <;> simp_all [isDoneB, isConsB]

theorem isAUB_not_isConsB {c : CallerState} : isAUB c = true → isConsB c = false := by
  obtain ⟨inp, ph⟩ := c
  cases ph with
  | done r =>
    cases r with
    | ok q => simp [isAUB]
    | error e => cases e <;> simp [isAUB, isConsB]
  | start => simp [isAUB]
  | afterLookup q => simp [isAUB]

theorem isConsB_not_isAUB {c : CallerState} : isConsB c = true → isAUB c = false := by
  obtain ⟨inp, ph⟩ := c
  cases ph with
  | done r =>
    cases r with
    | ok q => simp [isAUB]
    | error e => cases e <;> simp [isAUB, isConsB]
  | start => simp [isConsB]
  | afterLookup q => simp [isConsB]

theorem list_set_decomp {α : Type} :
    ∀ (cs : List α) (i : Nat) (c : α), cs[i]? = some c →
      ∃ l₁ l₂, cs = l₁ ++ c :: l₂ ∧ l₁.length = i ∧ ∀ x, cs.set i x = l₁ ++ x :: l₂ := by
  intro cs
  induction cs with
  | nil => intro i c h; simp at h
  | cons a rest ih =>
    intro i c h
    cases i with
    | zero =>
      have ha : a = c := by simpa using h
      exact ⟨[], rest, by simp [ha], rfl, fun x => by simp⟩
    | succ n =>
      have h2 : rest[n]? = some c := by simpa using h
      obtain ⟨l₁, l₂, he, hl, hs⟩ := ih n c h2
      refine ⟨a :: l₁, l₂, by simp [he], by simp [hl], fun x => ?_⟩
      simp [hs x]

theorem filter_length_set_eq {α : Type} (f : α → Bool) (l₁ l₂ : List α) (c c' : α)
    (hc : f c = false) (hc' : f c' = false) :
    ((l₁ ++ c' :: l₂).filter f).length = ((l₁ ++ c :: l₂).filter f).length := by
  simp [List.filter_append, List.filter_cons, hc, hc']

theorem filter_length_set_incr {α : Type} (f : α → Bool) (l₁ l₂ : List α) (c c' : α)
    (hc : f c = false) (hc' : f c' = true) :
    ((l₁ ++ c' :: l₂).filter f).length = ((l₁ ++ c :: l₂).filter f).length + 1 := by
  simp [List.filter_append, List.filter_cons, hc, hc']
  omega

theorem filter_length_zero {α : Type} (f : α → Bool) :
    ∀ l : List α, (∀ c ∈ l, f c = false) → (l.filter f).length = 0 := by
  intro l h
  induction l with
  | nil => rfl
  | cons a rest ih =>
    have ha := h a (by simp)
    simp only [List.filter_cons, ha, Bool.false_eq_true, if_false, ite_false]
    exact ih fun c hc => h c (by simp [hc])

theorem filter_length_partition {α : Type} (f g : α → Bool) :
    ∀ l : List α, (∀ c ∈ l, g c = !f c) →
      (l.filter f).length + (l.filter g).length = l.length := by
  intro l h
  induction l with
  | nil => rfl
  | cons a rest ih =>
    have ha := h a (by simp)
    have hrest := ih fun c hc => h c (by simp [hc])
    simp only [List.filter_cons, ha, List.length_cons]
    cases hfa : f a <;> simp [hfa] <;> omega

/-- Execution invariant for N concurrent `validate_and_consume` calls on one
stored, unexpired, unused proposal: the store always holds the proposal
(possibly already marked), nobody finishes before the mark exists, once the
mark exists exactly one caller holds a newly-consumed outcome, and every
finished caller holds either a newly-consumed outcome or `AlreadyUsed`. -/
structure C2Inv (pid : String) (p : Proposal) (inputs : List CallerInput)
    (st : RedisStore) (cs : List CallerState) : Prop where
  inputsEq : cs.map CallerState.input = inputs
  shape : (st.hget (pkey pid) "used" ≠ some "1" ∧ getP st pid = some p) ∨
    (st.hget (pkey pid) "used" = some "1" ∧ getP st pid = some {p with used := true})
  noDone : st.hget (pkey pid) "used" ≠ some "1" → ∀ c ∈ cs, isDoneB c = false
  oneCons : st.hget (pkey pid) "used" = some "1" → (cs.filter isConsB).length = 1
  dones : ∀ c ∈ cs, isDoneB c = true → isConsB c = true ∨ isAUB c = true

theorem c2_step (sha : String → List Nat) (ttl : Nat) (pid : String) (p : Proposal)
    (inputs : List CallerInput) (st : RedisStore) (cs : List CallerState) (i : Nat)
    (hfresh : ∀ inp ∈ inputs, ¬inp.now - p.created_at > ttl)
    (hinv : C2Inv pid p inputs st cs) :
    C2Inv pid p inputs (schedStep sha ttl pid (st, cs) i).1
      (schedStep sha ttl pid (st, cs) i).2 := by
  cases hi : cs[i]? with
  | none => rw [schedStep_miss st cs i hi]; exact hinv
  | some c =>
    obtain ⟨inp, ph⟩ := c
    have hinp : inp ∈ inputs := by
      rw [← hinv.inputsEq]
      exact List.mem_map_of_mem CallerState.input (List.getElem?_mem hi)
    obtain ⟨l₁, l₂, hcs, hlen, hset⟩ := list_set_decomp cs i ⟨inp, ph⟩ hi
    cases ph with
    | done r => rw [schedStep_done st cs i hi]; exact hinv
    | start =>
      rw [schedStep_start st cs i hi]
      have hfr := hfresh inp hinp
      have hl : ∃ q : Proposal, q.created_at = p.created_at ∧
          lookupStep ttl st pid inp = (.afterLookup q, st) := by
        rcases hinv.shape with ⟨hm, hg⟩ | ⟨hm, hg⟩
        · exact ⟨p, rfl, by simp [lookupStep, hg, hfr]⟩
        · exact ⟨{p with used := true}, rfl, by simp [lookupStep, hg, hfr]⟩
      obtain ⟨q, hqc, hl⟩ := hl
      rw [hl]
      rw [hset ⟨inp, CallerPhase.afterLookup q⟩]
      refine ⟨?_, hinv.shape, ?_, ?_, ?_⟩
      · have := hinv.inputsEq
        rw [hcs] at this
        simpa using this
      · intro hm c2 hc2
        have hold := hinv.noDone hm
        rw [hcs] at hold
        simp only [List.mem_append, List.mem_cons] at hc2
        rcases hc2 with h | h | h
        · exact hold c2 (by simp [h])
        · rw [h]; rfl
        · exact hold c2 (by simp [h])
      · intro hm
        have hold := hinv.oneCons hm
        rw [hcs] at hold
        rw [filter_length_set_eq isConsB l₁ l₂
          ⟨inp, CallerPhase.start⟩ ⟨inp, CallerPhase.afterLookup q⟩ rfl rfl]
        exact hold
      · intro c2 hc2 hd
        simp only [List.mem_append, List.mem_cons] at hc2
        rcases hc2 with h | h | h
        · exact hinv.dones c2 (by rw [hcs]; simp [h]) hd
        · rw [h] at hd; exact absurd hd (by simp [isDoneB])
        · exact hinv.dones c2 (by rw [hcs]; simp [h]) hd
    | afterLookup q =>
      rw [schedStep_afterLookup st cs i hi]
      rcases hinv.shape with ⟨hm, hg⟩ | ⟨hm, hg⟩
      · -- not yet marked: this CAS wins the race
        have hcas : ∃ r, casStep sha st pid inp q =
            (.done r, st.hsetMapping (pkey pid) [("used", "1")]) ∧
            isConsB ⟨inp, CallerPhase.done r⟩ = true := by
          by_cases hph : inp.phr ≠ q.confirm_phrase
          · exact ⟨Except.error (ConfirmError.phraseMismatch
              (phraseMismatchMsg q.confirm_phrase inp.phr)),
              by simp [casStep, markUsed_of_unused hm, hph], rfl⟩
          · by_cases htk : hashToken sha inp.tok ≠ q.token_hash
            · exact ⟨Except.error (ConfirmError.tokenMismatch tokenMismatchMsg),
                by simp [casStep, markUsed_of_unused hm, hph, htk], rfl⟩
            · exact ⟨Except.ok q,
                by simp [casStep, markUsed_of_unused hm, hph, htk], rfl⟩
        obtain ⟨r, hceq, hrc⟩ := hcas
        rw [hceq]
        rw [hset ⟨inp, CallerPhase.done r⟩]
        have hmarked := hget_hsetUsed st (pkey pid)
        refine ⟨?_, Or.inr ⟨hmarked, getP_hsetUsed hg⟩, ?_, ?_, ?_⟩
        · have := hinv.inputsEq
          rw [hcs] at this
          simpa using this
        · intro hx
          exact absurd hmarked hx
        · intro _
          have hold : (cs.filter isConsB).length = 0 := by
            refine filter_length_zero isConsB cs fun c2 hc2 => ?_
            exact isConsB_false_of_not_done (hinv.noDone hm c2 hc2)
          rw [hcs] at hold
          rw [filter_length_set_incr isConsB l₁ l₂
            ⟨inp, CallerPhase.afterLookup q⟩ ⟨inp, CallerPhase.done r⟩ rfl hrc]
          omega
        · intro c2 hc2 hd
          simp only [List.mem_append, List.mem_cons] at hc2
          rcases hc2 with h | h | h
          · exact hinv.dones c2 (by rw [hcs]; simp [h]) hd
          · rw [h]; exact Or.inl hrc
          · exact hinv.dones c2 (by rw [hcs]; simp [h]) hd
      · -- already marked: this CAS loses and reports AlreadyUsed
        have hceq : casStep sha st pid inp q =
            (.done (Except.error (ConfirmError.alreadyUsed (alreadyUsedMsg pid))), st) := by
          simp [casStep, markUsed_of_used hm]
        rw [hceq]
        rw [hset ⟨inp, CallerPhase.done
          (Except.error (ConfirmError.alreadyUsed (alreadyUsedMsg pid)))⟩]
        refine ⟨?_, Or.inr ⟨hm, hg⟩, ?_, ?_, ?_⟩
        · have := hinv.inputsEq
          rw [hcs] at this
          simpa using this
        · intro hx
          exact absurd hm hx
        · intro _
          have hold := hinv.oneCons hm
          rw [hcs] at hold
          rw [filter_length_set_eq isConsB l₁ l₂
            ⟨inp, CallerPhase.afterLookup q⟩
            ⟨inp, CallerPhase.done
              (Except.error (ConfirmError.alreadyUsed (alreadyUsedMsg pid)))⟩ rfl rfl]
          exact hold
        · intro c2 hc2 hd
          simp only [List.mem_append, List.mem_cons] at hc2
          rcases hc2 with h | h | h
          · exact hinv.dones c2 (by rw [hcs]; simp [h]) hd
          · rw [h]; exact Or.inr rfl
          · exact hinv.dones c2 (by rw [hcs]; simp [h]) hd

theorem c2_run (sha : String → List Nat) (ttl : Nat) (pid : String) (p : Proposal)
    (inputs : List CallerInput)
    (hfresh : ∀ inp ∈ inputs, ¬inp.now - p.created_at > ttl) :
    ∀ (sched : List Nat) (st : RedisStore) (cs : List CallerState),
      C2Inv pid p inputs st cs →
      C2Inv pid p inputs (runSched sha ttl pid st cs sched).1
        (runSched sha ttl pid st cs sched).2 := by
  intro sched
  induction sched with
  | nil => intro st cs h; exact h
  | cons i rest ih =>
    intro st cs h
    have h1 := c2_step sha ttl pid p inputs st cs i hfresh h
    simp only [runSched, List.foldl_cons]
    exact ih (schedStep sha ttl pid (st, cs) i).1 (schedStep sha ttl pid (st, cs) i).2 h1

/-- **C2.** Under any number of concurrent `validate_and_consume` calls on the
same stored, unexpired, unused proposal — any interleaving of their store
round trips, with no client-side lock, the exclusion coming only from the CAS
script — exactly one caller observes the unused-to-used transition and the
remaining N−1 fail with `AlreadyUsed`. -/
theorem c2_exactly_one_consumer (sha : String → List Nat) (ttl : Nat) (st : RedisStore)
    (pid : String) (p : Proposal) (inputs : List CallerInput) (sched : List Nat)
    (hp : getP st pid = some p) (hunused : p.used = false)
    (hfresh : ∀ inp ∈ inputs, ¬inp.now - p.created_at > ttl)
    (hne : inputs ≠ [])
    (hdone : ∀ c ∈ (runSched sha ttl pid st
      (inputs.map fun inp => ⟨inp, CallerPhase.start⟩) sched).2, isDoneB c = true) :
    ((runSched sha ttl pid st (inputs.map fun inp => ⟨inp, CallerPhase.start⟩)
        sched).2.filter isConsB).length = 1 ∧
    ((runSched sha ttl pid st (inputs.map fun inp => ⟨inp, CallerPhase.start⟩)
        sched).2.filter isAUB).length = inputs.length - 1 := by
  have hm0 : st.hget (pkey pid) "used" ≠ some "1" := by
    obtain ⟨u, hu, hub⟩ := hget_of_getP hp
    rw [hunused] at hub
    have hu1 : u ≠ "1" := by simpa using hub
    rw [hu]
    simp [hu1]
  have hinv0 : C2Inv pid p inputs st (inputs.map fun inp => ⟨inp, CallerPhase.start⟩) := by
    refine ⟨?_, Or.inl ⟨hm0, hp⟩, ?_, fun hx => absurd hx hm0, ?_⟩
    · simp only [List.map_map]
      rw [show (CallerState.input ∘ fun inp => (⟨inp, CallerPhase.start⟩ : CallerState)) = id
        from rfl, List.map_id]
    · intro _ c hc
      simp only [List.mem_map] at hc
      obtain ⟨inp, _, hc⟩ := hc
      rw [← hc]
      rfl
    · intro c hc hd
      simp only [List.mem_map] at hc
      obtain ⟨inp, _, hc⟩ := hc
      rw [← hc] at hd
      exact absurd hd (by simp [isDoneB])
  have hinv := c2_run sha ttl pid p inputs hfresh sched st _ hinv0
  have hlen : (runSched sha ttl pid st (inputs.map fun inp => ⟨inp, CallerPhase.start⟩)
      sched).2.length = inputs.length := by
    have := hinv.inputsEq
    calc _ = ((runSched sha ttl pid st (inputs.map fun inp => ⟨inp, CallerPhase.start⟩)
        sched).2.map CallerState.input).length := by simp
      _ = inputs.length := by rw [this]
  have hnonempty : (runSched sha ttl pid st (inputs.map fun inp => ⟨inp, CallerPhase.start⟩)
      sched).2 ≠ [] := by
    intro hx
    rw [hx] at hlen
    exact hne (List.eq_nil_of_length_eq_zero hlen.symm)
  obtain ⟨c0, hc0⟩ := List.exists_mem_of_ne_nil _ hnonempty
  have hmarked : (runSched sha ttl pid st (inputs.map fun inp => ⟨inp, CallerPhase.start⟩)
      sched).1.hget (pkey pid) "used" = some "1" := by
    by_contra hx
    have h1 := hinv.noDone hx c0 hc0
    rw [hdone c0 hc0] at h1
    exact absurd h1 (by simp)
  refine ⟨hinv.oneCons hmarked, ?_⟩
  have hpoint : ∀ c ∈ (runSched sha ttl pid st
      (inputs.map fun inp => ⟨inp, CallerPhase.start⟩) sched).2, isAUB c = !isConsB c := by
    intro c hc
    rcases hinv.dones c hc (hdone c hc) with h | h
    · simp [h, isConsB_not_isAUB h]
    · simp [h, isAUB_not_isConsB h]
  have hpart := filter_length_partition isConsB isAUB _ hpoint
  have hone := hinv.oneCons hmarked
  omega

/-- Witness for C2: three concurrent callers, an interleaved schedule. -/
theorem c2_witness :
    ((runSched shaZ 120 "p1" stW
        ([⟨5, "a", "x"⟩, ⟨6, "b", "y"⟩, ⟨7, "c", "z"⟩].map
          fun inp => ⟨inp, CallerPhase.start⟩) [0, 1, 2, 2, 1, 0]).2.filter
      isConsB).length = 1 ∧
    ((runSched shaZ 120 "p1" stW
        ([⟨5, "a", "x"⟩, ⟨6, "b", "y"⟩, ⟨7, "c", "z"⟩].map
          fun inp => ⟨inp, CallerPhase.start⟩) [0, 1, 2, 2, 1, 0]).2.filter
      isAUB).length = 3 - 1 :=
  c2_exactly_one_consumer shaZ 120 stW "p1" pW
    [⟨5, "a", "x"⟩, ⟨6, "b", "y"⟩, ⟨7, "c", "z"⟩] [0, 1, 2, 2, 1, 0]
    getP_stW rfl (by intro inp hinp; fin_cases hinp <;> decide) (by simp)
    (by decide)

/-! ### C9: what the error messages disclose -/

/-- `pat` occurs as a contiguous substring of `s`. -/
abbrev strContains (s pat : String) : Prop := pat.data <:+: s.data

/-- Characters of the fixed confirm phrase: uppercase letters and space. -/
def isPhraseCh (c : Char) : Bool := (65 ≤ c.toNat && c.toNat ≤ 90) || c.toNat = 32

theorem takeWhile_length_le (P : Char → Bool) :
    ∀ l : List Char, (l.takeWhile P).length ≤ l.length := by
  intro l
  induction l with
  | nil => simp
  | cons c cs ih =>
    by_cases hc : P c
    · simp only [List.takeWhile_cons, hc, if_true, ite_true, List.length_cons]
      omega
    · simp only [List.takeWhile_cons, hc, Bool.false_eq_true, if_false, ite_false,
        List.length_cons, List.length_nil]
      omega

theorem maxRun_le_length (P : Char → Bool) : ∀ l : List Char, maxRun P l ≤ l.length := by
  intro l
  induction l with
  | nil => simp [maxRun]
  | cons c cs ih =>
    by_cases hc : P c
    · have h1 : prefRunLen P (c :: cs) ≤ (c :: cs).length := by
        simp only [prefRunLen]
        exact takeWhile_length_le P (c :: cs)
      have h2 : maxRun P (c :: cs) = max (prefRunLen P (c :: cs)) (maxRun P cs) := by
        simp [maxRun, hc]
      rw [h2]
      simp only [List.length_cons] at *
      omega
    · have h2 : maxRun P (c :: cs) = maxRun P cs := by simp [maxRun, hc]
      rw [h2]
      simp only [List.length_cons]
      omega

theorem digit_not_phrase {c : Char} (h : isDigitCh c = true) : isPhraseCh c = false := by
  simp only [isDigitCh, Bool.and_eq_true, decide_eq_true_eq] at h
  simp only [isPhraseCh, Bool.or_eq_false_iff, Bool.and_eq_false_iff]
  constructor
  · simp only [decide_eq_false_iff_not]
    omega
  · simp only [decide_eq_false_iff_not]
    omega

theorem natStr_phraseRun_zero (n : Nat) : maxRun isPhraseCh (natStr n).data = 0 :=
  maxRun_eq_zero fun c hc => digit_not_phrase (natStr_digits n c hc)

theorem hashToken_all_hex (sha : String → List Nat) (t : String) :
    (hashToken sha t).data.all isHexLowerCh = true := by
  simp only [hashToken, List.all_eq_true]
  exact hexChars_hex (sha t)

theorem maxRun_natStr_le (P : Char → Bool) (n : Nat) :
    maxRun P (natStr n).data ≤ (natStr n).length :=
  maxRun_le_length P (natStr n).data

theorem takeWhile_nil_of_all_false {P : Char → Bool} {l : List Char}
    (h : ∀ c ∈ l, P c = false) : l.takeWhile P = [] := by
  cases l with
  | nil => rfl
  | cons c cs =>
    have hc := h c (by simp)
    simp [List.takeWhile_cons, hc]

theorem space_digits_run (n : Nat) : maxRun isPhraseCh (Char.ofNat 32 :: (natStr n).data) ≤ 1 := by
  have h0 : maxRun isPhraseCh (natStr n).data = 0 := natStr_phraseRun_zero n
  have h1 : (natStr n).data.takeWhile isPhraseCh = [] :=
    takeWhile_nil_of_all_false fun c hc => digit_not_phrase (natStr_digits n c hc)
  have h2 : maxRun isPhraseCh (Char.ofNat 32 :: (natStr n).data) =
      max (prefRunLen isPhraseCh (Char.ofNat 32 :: (natStr n).data))
        (maxRun isPhraseCh (natStr n).data) := by
    simp [maxRun, show isPhraseCh (Char.ofNat 32) = true from by decide]
  rw [h2, h0]
  simp only [prefRunLen, List.takeWhile_cons]
  rw [show isPhraseCh (Char.ofNat 32) = true from by decide]
  simp [h1]

/-- If every character of `pat` lies in the class `P` and the longest `P`-run
of `s` is shorter than `pat`, then `pat` cannot occur in `s`. -/
theorem not_contains_of_short_runs {s pat : String} {P : Char → Bool}
    (hall : pat.data.all P = true) (hrun : maxRun P s.data < pat.data.length) :
    ¬strContains s pat := by
  intro hc
  have := length_le_maxRun_of_infixP hc hall
  omega

theorem tokenMismatchMsg_hexRun : maxRun isHexLowerCh tokenMismatchMsg.data < 64 := by decide

theorem tokenMismatchMsg_phraseRun : maxRun isPhraseCh tokenMismatchMsg.data < 14 := by decide

theorem alreadyUsedMsg_decomp (pid : String) :
    (alreadyUsedMsg pid).data =
      ("Proposal " : String).data ++ Char.ofNat 39 ::
        (pid.data ++ Char.ofNat 39 ::
          (" has already been used. Each delete proposal can only be confirmed once." :
            String).data) := by
  simp [alreadyUsedMsg, qu, String.data_append, List.append_assoc]

theorem alreadyUsedMsg_hexRun (pid : String) (hpid : maxRun isHexLowerCh pid.data < 64) :
    maxRun isHexLowerCh (alreadyUsedMsg pid).data < 64 := by
  rw [alreadyUsedMsg_decomp]
  rw [maxRun_append_break (by decide), maxRun_append_break (by decide)]
  have f1 : maxRun isHexLowerCh ("Proposal " : String).data < 64 := by decide
  have f2 : maxRun isHexLowerCh
      (" has already been used. Each delete proposal can only be confirmed once." :
        String).data < 64 := by decide
  omega

theorem alreadyUsedMsg_phraseRun (pid : String) (hpid : maxRun isPhraseCh pid.data < 14) :
    maxRun isPhraseCh (alreadyUsedMsg pid).data < 14 := by
  rw [alreadyUsedMsg_decomp]
  rw [maxRun_append_break (by decide), maxRun_append_break (by decide)]
  have f1 : maxRun isPhraseCh ("Proposal " : String).data < 14 := by decide
  have f2 : maxRun isPhraseCh
      (" has already been used. Each delete proposal can only be confirmed once." :
        String).data < 14 := by decide
  omega

theorem phraseMismatchMsg_decomp (expected got : String) :
    (phraseMismatchMsg expected got).data =
      ("Confirmation phrase mismatch. Expected " : String).data ++ Char.ofNat 39 ::
        (expected.data ++ Char.ofNat 39 ::
          ((", got " : String).data ++ Char.ofNat 39 ::
            (got.data ++ Char.ofNat 39 :: ("." : String).data))) := by
  simp [phraseMismatchMsg, qu, String.data_append, List.append_assoc]

theorem phraseMismatchMsg_hexRun (expected got : String)
    (hexp : maxRun isHexLowerCh expected.data < 64)
    (hgot : maxRun isHexLowerCh got.data < 64) :
    maxRun isHexLowerCh (phraseMismatchMsg expected got).data < 64 := by
  rw [phraseMismatchMsg_decomp]
  rw [maxRun_append_break (by decide), maxRun_append_break (by decide),
    maxRun_append_break (by decide), maxRun_append_break (by decide)]
  have f1 : maxRun isHexLowerCh
      ("Confirmation phrase mismatch. Expected " : String).data < 64 := by decide
  have f2 : maxRun isHexLowerCh (", got " : String).data < 64 := by decide
  have f3 : maxRun isHexLowerCh ("." : String).data < 64 := by decide
  omega

theorem phraseMismatchMsg_contains_expected (expected got : String) :
    strContains (phraseMismatchMsg expected got) expected := by
  refine ⟨("Confirmation phrase mismatch. Expected " : String).data ++ [Char.ofNat 39],
    Char.ofNat 39 :: ((", got " : String).data ++ Char.ofNat 39 ::
      (got.data ++ Char.ofNat 39 :: ("." : String).data)), ?_⟩
  rw [phraseMismatchMsg_decomp]
  simp [List.append_assoc]

theorem expiredMsg_decomp (pid : String) (age ttl : Nat) :
    (expiredMsg pid age ttl).data =
      ("Proposal " : String).data ++ Char.ofNat 39 ::
        (pid.data ++ Char.ofNat 39 ::
          ((" expired " : String).data ++ Char.ofNat 40 ::
            ((natStr age).data ++ Char.ofNat 115 ::
              ([Char.ofNat 32] ++ Char.ofNat 62 ::
                ((Char.ofNat 32 :: (natStr ttl).data) ++ Char.ofNat 115 ::
                  (" TTL). Please create a new delete request." : String).data))))) := by
  have h1 : (" expired (" : String).data =
      (" expired " : String).data ++ [Char.ofNat 40] := by decide
  have h2 : ("s > " : String).data =
      Char.ofNat 115 :: (Char.ofNat 32 :: (Char.ofNat 62 :: [Char.ofNat 32])) := by decide
  have h3 : ("s TTL). Please create a new delete request." : String).data =
      Char.ofNat 115 :: (" TTL). Please create a new delete request." : String).data := by
    decide
  simp [expiredMsg, qu, String.data_append, h1, h2, h3, List.append_assoc]

theorem expiredMsg_hexRun (pid : String) (age ttl : Nat)
    (hpid : maxRun isHexLowerCh pid.data < 64)
    (hage : (natStr age).length < 64) (httl : (natStr ttl).length < 64) :
    maxRun isHexLowerCh (expiredMsg pid age ttl).data < 64 := by
  rw [expiredMsg_decomp]
  rw [maxRun_append_break (by decide), maxRun_append_break (by decide),
    maxRun_append_break (by decide), maxRun_append_break (by decide),
    maxRun_append_break (by decide), maxRun_append_break (by decide)]
  have f1 : maxRun isHexLowerCh ("Proposal " : String).data < 64 := by decide
  have f2 : maxRun isHexLowerCh (" expired " : String).data < 64 := by decide
  have f3 : maxRun isHexLowerCh [Char.ofNat 32] < 64 := by decide
  have f4 : maxRun isHexLowerCh
      (" TTL). Please create a new delete request." : String).data < 64 := by decide
  have g1 : maxRun isHexLowerCh (natStr age).data < 64 := by
    have := maxRun_natStr_le isHexLowerCh age
    omega
  have g2 : maxRun isHexLowerCh (Char.ofNat 32 :: (natStr ttl).data) < 64 := by
    have h1 : maxRun isHexLowerCh (Char.ofNat 32 :: (natStr ttl).data) =
        maxRun isHexLowerCh (natStr ttl).data := by
      simp [maxRun, show isHexLowerCh (Char.ofNat 32) = false from by decide]
    have h2 := maxRun_natStr_le isHexLowerCh ttl
    omega
  omega

theorem expiredMsg_phraseRun (pid : String) (age ttl : Nat)
    (hpid : maxRun isPhraseCh pid.data < 14) :
    maxRun isPhraseCh (expiredMsg pid age ttl).data < 14 := by
  rw [expiredMsg_decomp]
  rw [maxRun_append_break (by decide), maxRun_append_break (by decide),
    maxRun_append_break (by decide), maxRun_append_break (by decide),
    maxRun_append_break (by decide), maxRun_append_break (by decide)]
  have f1 : maxRun isPhraseCh ("Proposal " : String).data < 14 := by decide
  have f2 : maxRun isPhraseCh (" expired " : String).data < 14 := by decide
  have f3 : maxRun isPhraseCh [Char.ofNat 32] < 14 := by decide
  have f4 : maxRun isPhraseCh
      (" TTL). Please create a new delete request." : String).data < 14 := by decide
  have g1 : maxRun isPhraseCh (natStr age).data = 0 := natStr_phraseRun_zero age
  have g2 : maxRun isPhraseCh (Char.ofNat 32 :: (natStr ttl).data) ≤ 1 := space_digits_run ttl
  omega

/-- **C9 (amended).** For every stored proposal (with the shapes
`create_proposal` produces: a 64-character lowercase-hex token hash, the
fixed phrase `CONFIRM DELETE`, an id and inputs without 64-character hex
runs, ages and TTLs of fewer than 64 digits), an error raised by
`validate_and_consume` never carries the stored token hash in its message,
and no error other than the phrase mismatch carries the stored confirm
phrase; the phrase-mismatch error, however, does disclose the stored
confirm phrase in its message (`Expected '...'`), contrary to the original
claim. -/
theorem c9_amended_disclosure (sha : String → List Nat) (ttl : Nat) (st : RedisStore)
    (now : Nat) (pid tok phr : String) (p : Proposal) (e : ConfirmError)
    (hp : getP st pid = some p)
    (he : (validateAndConsume sha ttl st now pid tok phr).1 = Except.error e)
    (hth_len : p.token_hash.length = 64)
    (hth_hex : p.token_hash.data.all isHexLowerCh = true)
    (hcp : p.confirm_phrase = "CONFIRM DELETE")
    (hpid64 : maxRun isHexLowerCh pid.data < 64)
    (hpid14 : maxRun isPhraseCh pid.data < 14)
    (hphr64 : maxRun isHexLowerCh phr.data < 64)
    (hage : (natStr (now - p.created_at)).length < 64)
    (httl : (natStr ttl).length < 64) :
    (∀ m, e = ConfirmError.phraseMismatch m → strContains m p.confirm_phrase) ∧
    ((∀ m, e ≠ ConfirmError.phraseMismatch m) → ¬strContains e.message p.confirm_phrase) ∧
    ¬strContains e.message p.token_hash := by
  have hthd : p.token_hash.data.length = 64 := hth_len
  have hcpall : ("CONFIRM DELETE" : String).data.all isPhraseCh = true := by decide
  have hcplen : ("CONFIRM DELETE" : String).data.length = 14 := by decide
  simp only [validateAndConsume, hp] at he
  by_cases hexp : now - p.created_at > ttl
  · rw [if_pos hexp] at he
    replace he : Except.error (ConfirmError.expired
        (expiredMsg pid (now - p.created_at) ttl)) = Except.error e := he
    have hee : e = ConfirmError.expired (expiredMsg pid (now - p.created_at) ttl) := by
      injection he with h2
      exact h2.symm
    subst hee
    refine ⟨fun m hm => absurd hm (by simp), fun _ => ?_, ?_⟩
    · rw [hcp]
      refine not_contains_of_short_runs hcpall ?_
      rw [hcplen]
      exact expiredMsg_phraseRun pid (now - p.created_at) ttl hpid14
    · refine not_contains_of_short_runs hth_hex ?_
      rw [hthd]
      exact expiredMsg_hexRun pid (now - p.created_at) ttl hpid64 hage httl
  · rw [if_neg hexp] at he
    by_cases hc : st.hget (pkey pid) "used" = some "1"
    · rw [markUsed_of_used hc] at he
      replace he : Except.error (ConfirmError.alreadyUsed (alreadyUsedMsg pid)) =
          Except.error e := he
      have hee : e = ConfirmError.alreadyUsed (alreadyUsedMsg pid) := by
        injection he with h2
        exact h2.symm
      subst hee
      refine ⟨fun m hm => absurd hm (by simp), fun _ => ?_, ?_⟩
      · rw [hcp]
        refine not_contains_of_short_runs hcpall ?_
        rw [hcplen]
        exact alreadyUsedMsg_phraseRun pid hpid14
      · refine not_contains_of_short_runs hth_hex ?_
        rw [hthd]
        exact alreadyUsedMsg_hexRun pid hpid64
    · rw [markUsed_of_unused hc] at he
      replace he : (if phr ≠ p.confirm_phrase then
          (Except.error (ConfirmError.phraseMismatch (phraseMismatchMsg p.confirm_phrase phr)),
            st.hsetMapping (pkey pid) [("used", "1")])
        else if hashToken sha tok ≠ p.token_hash then
          (Except.error (ConfirmError.tokenMismatch tokenMismatchMsg),
            st.hsetMapping (pkey pid) [("used", "1")])
        else (Except.ok p, st.hsetMapping (pkey pid) [("used", "1")])).1 =
          Except.error e := he
      by_cases hph : phr ≠ p.confirm_phrase
      · rw [if_pos hph] at he
        replace he : Except.error (ConfirmError.phraseMismatch
            (phraseMismatchMsg p.confirm_phrase phr)) = Except.error e := he
        have hee : e = ConfirmError.phraseMismatch (phraseMismatchMsg p.confirm_phrase phr) := by
          injection he with h2
          exact h2.symm
        subst hee
        refine ⟨?_, ?_, ?_⟩
        · intro m hm
          have hm2 : phraseMismatchMsg p.confirm_phrase phr = m := by
            injection hm
          rw [← hm2]
          exact phraseMismatchMsg_contains_expected p.confirm_phrase phr
        · intro hno
          exact absurd rfl (hno (phraseMismatchMsg p.confirm_phrase phr))
        · refine not_contains_of_short_runs hth_hex ?_
          rw [hthd]
          refine phraseMismatchMsg_hexRun p.confirm_phrase phr ?_ hphr64
          rw [hcp]
          decide
      · rw [if_neg hph] at he
        by_cases htk : hashToken sha tok ≠ p.token_hash
        · rw [if_pos htk] at he
          replace he : Except.error (ConfirmError.tokenMismatch tokenMismatchMsg) =
              Except.error e := he
          have hee : e = ConfirmError.tokenMismatch tokenMismatchMsg := by
            injection he with h2
            exact h2.symm
          subst hee
          refine ⟨fun m hm => absurd hm (by simp), fun _ => ?_, ?_⟩
          · rw [hcp]
            refine not_contains_of_short_runs hcpall ?_
            rw [hcplen]
            exact tokenMismatchMsg_phraseRun
          · refine not_contains_of_short_runs hth_hex ?_
            rw [hthd]
            exact tokenMismatchMsg_hexRun
        · rw [if_neg htk] at he
          replace he : Except.ok p = Except.error e := he
          exact absurd he (by simp)

/-- Witness for the amended C9, at a concrete expired proposal. -/
theorem c9_witness :
    (∀ m, ConfirmError.expired (expiredMsg "p1" 121 120) = ConfirmError.phraseMismatch m →
      strContains m pW.confirm_phrase) ∧
    ((∀ m, ConfirmError.expired (expiredMsg "p1" 121 120) ≠ ConfirmError.phraseMismatch m) →
      ¬strContains (ConfirmError.expired (expiredMsg "p1" 121 120)).message
        pW.confirm_phrase) ∧
    ¬strContains (ConfirmError.expired (expiredMsg "p1" 121 120)).message pW.token_hash :=
  c9_amended_disclosure shaZ 120 stW 121 "p1" "t" "c" pW
    (ConfirmError.expired (expiredMsg "p1" 121 120)) getP_stW rfl (by decide) (by decide)
    rfl (by decide) (by decide) (by decide) (by decide) (by decide)

/-- Counterexample to C9 as stated: a confirm attempt with a wrong phrase
raises an error whose message contains the stored confirm phrase. -/
theorem c9_counterexample :
    (validateAndConsume shaZ 120 stW 5 "p1" "t" "WRONG").1 =
      Except.error (ConfirmError.phraseMismatch (phraseMismatchMsg "CONFIRM DELETE" "WRONG")) ∧
    getP stW "p1" = some pW ∧
    pW.confirm_phrase = "CONFIRM DELETE" ∧
    strContains (phraseMismatchMsg "CONFIRM DELETE" "WRONG") pW.confirm_phrase :=
  ⟨rfl, getP_stW, rfl, phraseMismatchMsg_contains_expected "CONFIRM DELETE" "WRONG"⟩

/-! ### C4 revisited: the uncaught `KeyError` is a seventh outcome

The hash holding only `used = '1'` that the CAS leaves behind on an evicted
key (C10) is non-empty but misses the other six fields, so on it `_get`
raises an uncaught `KeyError` instead of any of the six enumerated
outcomes. -/

theorem getPE_found_iff {st : RedisStore} {pid : String} {p : Proposal} :
    getPE st pid = GetResult.found p ↔ getP st pid = some p := by
  simp only [getPE, getP]
  by_cases hnil : st.hgetall (pkey pid) = []
  · simp [hnil]
  · simp only [if_neg hnil]
    cases alistGet (st.hgetall (pkey pid)) "proposal_id" <;>
      cases alistGet (st.hgetall (pkey pid)) "table" <;>
      cases alistGet (st.hgetall (pkey pid)) "record_id" <;>
      cases alistGet (st.hgetall (pkey pid)) "token_hash" <;>
      cases alistGet (st.hgetall (pkey pid)) "confirm_phrase" <;>
      cases alistGet (st.hgetall (pkey pid)) "created_at" <;>
      cases alistGet (st.hgetall (pkey pid)) "used" <;>
      simp

theorem getPE_absent_iff {st : RedisStore} {pid : String} :
    getPE st pid = GetResult.absent ↔ st.hgetall (pkey pid) = [] := by
  simp only [getPE]
  by_cases hnil : st.hgetall (pkey pid) = []
  · simp [hnil]
  · simp only [if_neg hnil]
    cases alistGet (st.hgetall (pkey pid)) "proposal_id" <;>
      cases alistGet (st.hgetall (pkey pid)) "table" <;>
      cases alistGet (st.hgetall (pkey pid)) "record_id" <;>
      cases alistGet (st.hgetall (pkey pid)) "token_hash" <;>
      cases alistGet (st.hgetall (pkey pid)) "confirm_phrase" <;>
      cases alistGet (st.hgetall (pkey pid)) "created_at" <;>
      cases alistGet (st.hgetall (pkey pid)) "used" <;>
      simp [hnil]

/-- When the lookup parses, the faithful call agrees with the non-crashing
restriction on outcome and store alike. -/
theorem validateAndConsumeE_found {sha : String → List Nat} {ttl : Nat} {st : RedisStore}
    {now : Nat} {pid tok phr : String} {p : Proposal}
    (hf : getPE st pid = GetResult.found p) :
    validateAndConsumeE sha ttl st now pid tok phr =
      (CallOutcome.ret (validateAndConsume sha ttl st now pid tok phr).1,
        (validateAndConsume sha ttl st now pid tok phr).2) := by
  have hg : getP st pid = some p := getPE_found_iff.mp hf
  simp only [validateAndConsumeE, validateAndConsume, hf, hg]
  by_cases hexp : now - p.created_at > ttl
  · simp [hexp]
  · simp only [if_neg hexp]
    cases hm : markUsed st pid with
    | mk r st1 =>
      cases r with
      | error e => rfl
      | ok u =>
        by_cases hph : phr ≠ p.confirm_phrase
        · simp [hph]
        · by_cases htk : hashToken sha tok ≠ p.token_hash
          · simp [hph, htk]
          · simp [hph, htk]

def outcomeKindE : CallOutcome → Option OutcomeKind
  | .ret r => some (errKind r)
  | .keyError _ => none

/-- **C4 (amended).** On every store state where the proposal's hash is
absent or fully populated — all states the write path itself produces — the
call checks in the fixed order and yields exactly one of the six claimed
outcomes: NotFound, Expired, AlreadyUsed, PhraseMismatch, TokenMismatch,
success. On a partially populated hash, such as the `used`-only marker the
consumption primitive leaves on an evicted key, the call instead escapes
with an uncaught `KeyError` — none of the six — before any further store
operation. -/
theorem c4_amended_outcome_order (sha : String → List Nat) (ttl : Nat) (st : RedisStore)
    (now : Nat) (pid tok phr : String) :
    ((getPE st pid = GetResult.absent ∨ (∃ p, getPE st pid = GetResult.found p)) →
      outcomeKindE (validateAndConsumeE sha ttl st now pid tok phr).1 =
        some (claimedOutcome sha ttl st now pid tok phr)) ∧
    (∀ f, getPE st pid = GetResult.keyError f →
      validateAndConsumeE sha ttl st now pid tok phr = (CallOutcome.keyError f, st)) := by
  constructor
  · intro hok
    rcases hok with h | ⟨p, h⟩
    · have hnil : st.hgetall (pkey pid) = [] := getPE_absent_iff.mp h
      have hg : getP st pid = none := by simp [getP, hnil]
      simp [validateAndConsumeE, h, outcomeKindE, claimedOutcome, hg, errKind]
    · rw [validateAndConsumeE_found h]
      simp only [outcomeKindE]
      rw [validate_outcome_order]
  · intro f hf
    simp [validateAndConsumeE, hf]

/-- A store holding only the `used`-marker hash for a proposal id. -/
def stM : RedisStore := ⟨[(pkey "p1", ⟨[("used", "1")], none⟩)]⟩

/-- Witness for the amended C4: a fully populated store follows the
six-outcome order; the bare marker store escapes with `KeyError`. -/
theorem c4_witness :
    outcomeKindE (validateAndConsumeE shaZ 120 stW 5 "p1" "t" "c").1 =
      some (claimedOutcome shaZ 120 stW 5 "p1" "t" "c") ∧
    validateAndConsumeE shaZ 120 stM 6 "p1" "t" "c" =
      (CallOutcome.keyError "proposal_id", stM) :=
  ⟨(c4_amended_outcome_order shaZ 120 stW 5 "p1" "t" "c").1
      (Or.inr ⟨pW, getPE_found_iff.mpr getP_stW⟩),
    (c4_amended_outcome_order shaZ 120 stM 6 "p1" "t" "c").2 "proposal_id" rfl⟩

/-- Counterexample to C4 as stated: on the store that the eviction
interleaving of C10 actually leaves behind — whose hash for the proposal id
holds only `used = '1'` — the call raises an uncaught `KeyError` on
`proposal_id`, which is none of the six enumerated outcomes and in
particular not the NotFound of an absent proposal. -/
theorem c4_counterexample :
    (validateWithEviction shaZ 120 stW 5 "p1" (tokenUrlsafe (List.replicate 32 0))
        "CONFIRM DELETE").2.lookup (pkey "p1") = some ⟨[("used", "1")], none⟩ ∧
    (validateAndConsumeE shaZ 120
        (validateWithEviction shaZ 120 stW 5 "p1" (tokenUrlsafe (List.replicate 32 0))
          "CONFIRM DELETE").2
        6 "p1" (tokenUrlsafe (List.replicate 32 0)) "CONFIRM DELETE").1 =
      CallOutcome.keyError "proposal_id" ∧
    (validateAndConsumeE shaZ 120
        (validateWithEviction shaZ 120 stW 5 "p1" (tokenUrlsafe (List.replicate 32 0))
          "CONFIRM DELETE").2
        6 "p1" (tokenUrlsafe (List.replicate 32 0)) "CONFIRM DELETE").1 ≠
      CallOutcome.ret (Except.error (ConfirmError.notFound (notFoundMsg "p1"))) := by
  refine ⟨rfl, rfl, ?_⟩
  intro h
  rw [show (validateAndConsumeE shaZ 120
      (validateWithEviction shaZ 120 stW 5 "p1" (tokenUrlsafe (List.replicate 32 0))
        "CONFIRM DELETE").2
      6 "p1" (tokenUrlsafe (List.replicate 32 0)) "CONFIRM DELETE").1 =
    CallOutcome.keyError "proposal_id" from rfl] at h
  simp at h

end DataverseMCP
